import Mathlib

/-!
A shallow embedding of the path-based authorization engine of
subversion/libsvn_repos/authz.c, and a verification of its specification.

The engine compiles a parsed INI-style rules file into a per-user prefix
tree (create_user_authz) and answers access queries over it (lookup,
svn_repos_authz_check_access).  The configuration container itself
(svn_config_t) is an external collaborator; it is modelled here, from the
spec, as an ordered list of sections with ordered (key, value) entries.
Strings are Lean Strings; C string scanning is modelled on the underlying
character lists.
-/

namespace Authz

/-- Access rights (svn_repos_authz_access_t): a bitset of the flags
svn_authz_read, svn_authz_write, and the query modifier svn_authz_recursive. -/
structure Rights where
  read : Bool
  write : Bool
  recursive : Bool
deriving DecidableEq, Repr, Fintype

/-- Bitwise AND of two rights sets. -/
def Rights.band (a b : Rights) : Rights :=
  ⟨a.read && b.read, a.write && b.write, a.recursive && b.recursive⟩

/-- Bitwise OR of two rights sets. -/
def Rights.bor (a b : Rights) : Rights :=
  ⟨a.read || b.read, a.write || b.write, a.recursive || b.recursive⟩

/-- svn_authz_none: the empty rights set. -/
def svn_authz_none : Rights := ⟨false, false, false⟩

/-- svn_authz_read as a rights set. -/
def svn_authz_read : Rights := ⟨true, false, false⟩

/-- svn_authz_write as a rights set. -/
def svn_authz_write : Rights := ⟨false, true, false⟩

/-- The C idiom (a AND b) == b: the granted rights a include the required
rights b. -/
def covers (a b : Rights) : Bool := Rights.band a b == b

/-- Bitset inclusion of rights: a AND b == a. -/
def Rights.sub (a b : Rights) : Prop := Rights.band a b = a

instance (a b : Rights) : Decidable (a.sub b) := by
  unfold Rights.sub
  infer_instance

/-- Clearing the svn_authz_recursive flag: required_access AND NOT recursive. -/
def clearRecursive (a : Rights) : Rights := ⟨a.read, a.write, false⟩

/-- Modelled from the spec: one section of the parsed rules file, as the
external svn_config parser produces it - a name and ordered entries. -/
structure ConfigSection where
  name : String
  entries : List (String × String)
deriving DecidableEq, Repr

/-- Modelled from the spec: a parsed configuration (svn_config_t), an
ordered collection of sections.  svn_config holds at most one section per
name; lookups here use the first section with the given name. -/
abbrev Config := List ConfigSection

/-- Entries of the named section (empty when the section is absent). -/
def entriesOf (cfg : Config) (sec : String) : List (String × String) :=
  match cfg.find? (fun s => s.name == sec) with
  | some s => s.entries
  | none => []

/-- svn_config_get: the value of KEY in SECTION, if present. -/
def configGet (cfg : Config) (sec key : String) : Option String :=
  match (entriesOf cfg sec).find? (fun e => e.1 == key) with
  | some e => some e.2
  | none => none

/-- Split a character list at every occurrence of the separator character;
empty tokens are kept (the callers filter them).  Never returns []. -/
def splitOnChar (sep : Char) : List Char → List (List Char)
  | [] => [[]]
  | c :: rest =>
      if c = sep then [] :: splitOnChar sep rest
      else
        match splitOnChar sep rest with
        | [] => [[c]]
        | t :: ts => (c :: t) :: ts

/-- Both-ends whitespace trim on a character list (apr/svn whitespace chop). -/
def trimChars (cs : List Char) : List Char :=
  ((cs.dropWhile Char.isWhitespace).reverse.dropWhile Char.isWhitespace).reverse

/-- Modelled from the spec: svn_cstring_split(value, ",", TRUE): tokenize on
the separator, chop whitespace, and never produce empty tokens. -/
def splitChop (s : String) : List String :=
  (((splitOnChar ',' s.data).map (fun cs => String.mk (trimChars cs))).filter
    (fun t => t ≠ ""))

/-- Modelled from the spec: svn_cstring_split(path, "/", FALSE): the nonempty
"/"-separated tokens of a character list. -/
def segsChars (l : List Char) : List String :=
  ((splitOnChar '/' l).filter (fun cs => cs ≠ [])).map (fun cs => String.mk cs)

/-- Does the string start with the given character? (C: s[0] == c). -/
def headIs (c : Char) (s : String) : Bool :=
  match s.data with
  | d :: _ => d == c
  | [] => false

/-- get_aliases: the user plus every alias name (decorated with '&') whose
[aliases] entry maps it to the user. -/
def get_aliases (cfg : Config) (user : String) : List String :=
  user :: ((entriesOf cfg "aliases").filterMap
    (fun e => if e.2 == user then some (String.mk ('&' :: e.1.data)) else none))

/-- Append VAL to the list mapped from KEY in an association map, creating
the entry if needed (the reversed-membership hash of add_group). -/
def mapPush (m : List (String × List String)) (key val : String) :
    List (String × List String) :=
  match m.find? (fun p => p.1 == key) with
  | some _ => m.map (fun p => if p.1 == key then (p.1, p.2 ++ [val]) else p)
  | none => m ++ [(key, [val])]

/-- add_group: for one [groups] entry (name, value), record a reverse edge
member -> "@name" for every member that is itself a group reference or one
of the user's names/aliases. -/
def add_group (aliases : List String) (m0 : List (String × List String))
    (name value : String) : List (String × List String) :=
  (splitChop value).foldl
    (fun m member =>
      if headIs '@' member || aliases.contains member then
        mapPush m member (String.mk ('@' :: name.data))
      else m)
    m0

/-- get_group_memberships: the reverse membership map over all [groups]
entries. -/
def get_group_memberships (cfg : Config) (aliases : List String) :
    List (String × List String) :=
  (entriesOf cfg "groups").foldl (fun m e => add_group aliases m e.1 e.2) []

/-- Lookup in the reverse membership map (absent key: no memberships). -/
def assocGet (m : List (String × List String)) (k : String) : List String :=
  match m.find? (fun p => p.1 == k) with
  | some p => p.2
  | none => []

/-- The worklist loop of get_memberships: pop a name, add every group it is
a member of that is not in the result yet, both to the result and to the
worklist.  The fuel only bounds the iteration count (see closureFuel). -/
def closureLoop (m : List (String × List String)) :
    Nat → List String → List String → List String
  | 0, result, _ => result
  | _ + 1, result, [] => result
  | fuel + 1, result, name :: queue =>
      let st := (assocGet m name).foldl
        (fun (st : List String × List String) g =>
          if st.1.contains g then st else (st.1 ++ [g], st.2 ++ [g]))
        (result, queue)
      closureLoop m fuel st.1 st.2

/-- Fuel that the worklist of get_memberships can never exhaust: each
iteration pops one element, and the elements ever pushed are the initial
seeds plus, thanks to the contains-guard, at most one per value in the
membership map. -/
def closureFuel (init : List String) (m : List (String × List String)) : Nat :=
  init.length + (m.foldl (fun n p => n + p.2.length) 0) + 1

/-- set_add_string: add a string to a set (hash set modelled as a list). -/
def set_add_string (l : List String) (s : String) : List String :=
  if l.contains s then l else l ++ [s]

/-- get_memberships: every name (user, decorated alias, decorated group,
standard token) that refers to USER in the authz config; the anonymous user
gets exactly the "*" and "$anonymous" tokens. -/
def get_memberships (cfg : Config) (user : Option String) : List String :=
  match user with
  | none => set_add_string (set_add_string [] "*") "$anonymous"
  | some u =>
      let result := get_aliases cfg u
      let memberships := get_group_memberships cfg result
      let result := closureLoop memberships (closureFuel result memberships)
        result result
      set_add_string (set_add_string result "*") "$authenticated"

/-- process_rule: fold one rule-set entry (name, value) into the (found,
access) accumulator.  A leading '~' inverts the membership test; a matching
entry ORs in read for an 'r' in the value and write for a 'w'. -/
def process_rule (memberships : List String) (st : Bool × Rights)
    (entry : String × String) : Bool × Rights :=
  let inverted : Bool := headIs '~' entry.1
  let name : String :=
    if inverted then String.mk (entry.1.data.drop 1) else entry.1
  if inverted == !(memberships.contains name) then
    (true, Rights.bor st.2
      (Rights.bor (if (entry.2.data.contains 'r') then svn_authz_read else svn_authz_none)
                  (if (entry.2.data.contains 'w') then svn_authz_write else svn_authz_none)))
  else st

/-- has_matching_rule: scan a whole rule set; if at least one entry applied,
return the aggregated access rights. -/
def has_matching_rule (memberships : List String)
    (entries : List (String × String)) : Option Rights :=
  let st := entries.foldl (process_rule memberships) (false, svn_authz_none)
  if st.1 then some st.2 else none

/-- The pattern tree (node_t): one whole path segment per node, the access
explicitly assigned to this exact path (if any), the minimal and maximal
rights anywhere in the subtree, and the sub-segment map. -/
inductive Node : Type where
  | mk (segment : String) (access : Option Rights) (minRights maxRights : Rights)
       (subNodes : List (String × Node)) : Node

/-- The node's path segment. -/
def Node.segment : Node → String
  | .mk s _ _ _ _ => s

/-- The node's explicitly assigned access, if any. -/
def Node.access : Node → Option Rights
  | .mk _ a _ _ _ => a

/-- Minimal rights anywhere in the node's subtree (valid after finalize). -/
def Node.minRights : Node → Rights
  | .mk _ _ mn _ _ => mn

/-- Maximal rights anywhere in the node's subtree (valid after finalize). -/
def Node.maxRights : Node → Rights
  | .mk _ _ _ mx _ => mx

/-- The sub-segment to sub-node map (a hash in C, an association list here). -/
def Node.subNodes : Node → List (String × Node)
  | .mk _ _ _ _ sub => sub

/-- create_node: a fresh node for SEGMENT (apr_pcalloc zeroes the rest). -/
def create_node (segment : String) : Node :=
  .mk segment none svn_authz_none svn_authz_none []

/-- The effective access rights at a node: its own access if set, else the
rights inherited from the nearest ancestor with an access record. -/
def effOf (inh : Rights) (n : Node) : Rights :=
  match n.access with
  | some a => a
  | none => inh

/-- The node with its access replaced. -/
def Node.setAccess : Node → Option Rights → Node
  | .mk s _ mn mx sub, a => .mk s a mn mx sub

/-- Child lookup by exact segment (apr_hash_get on sub_nodes). -/
def assocFind (l : List (String × Node)) (k : String) : Option Node :=
  match l.find? (fun p => p.1 == k) with
  | some p => some p.2
  | none => none

/-- Replace the child stored under key K (existing by construction). -/
def replaceChild (l : List (String × Node)) (k : String) (c : Node) :
    List (String × Node) :=
  l.map (fun p => if p.1 == k then (p.1, c) else p)

/-- insert_path: descend along SEGMENTS below NODE, creating sub-nodes as
needed, and set the leaf's access to ACCESS.  The C code asserts that the
leaf's access is still unset (assert(node->access == NULL)); the returned
Bool records whether that assertion held (with NDEBUG the C code would
overwrite, which is what the returned node does). -/
def insert_path (node : Node) (access : Rights) : List String → Node × Bool
  | [] => (node.setAccess (some access), node.access == none)
  | seg :: rest =>
      match assocFind node.subNodes seg with
      | some child =>
          let r := insert_path child access rest
          (.mk node.segment node.access node.minRights node.maxRights
            (replaceChild node.subNodes seg r.1), r.2)
      | none =>
          let r := insert_path (create_node seg) access rest
          (.mk node.segment node.access node.minRights node.maxRights
            (node.subNodes ++ [(seg, r.1)]), r.2)

/-- The first ':' of a section name, split into (before, after), if any
(C: strchr(name, ':')). -/
def splitAtColon : List Char → Option (List Char × List Char)
  | [] => none
  | c :: rest =>
      if c = ':' then some ([], rest)
      else
        match splitAtColon rest with
        | some (a, b) => some (c :: a, b)
        | none => none

/-- Split a section name at its first ':' into the repository prefix and the
rest, if a ':' is present. -/
def splitRepoName (name : String) : Option (String × String) :=
  match splitAtColon name.data with
  | some (a, b) => some (String.mk a, String.mk b)
  | none => none

/-- process_path_rule: handle one config section.  Skip it unless its
(optional) repository prefix equals REPOSITORY and its path part starts
with '/'; skip it when no rule in it applies to MEMBERSHIPS; otherwise
insert the aggregated rights at the path's node.  The Bool reports that
insert_path's assertion held. -/
def process_path_rule (repository : String) (memberships : List String)
    (root : Node) (sec : ConfigSection) : Node × Bool :=
  let path : Option String :=
    match splitRepoName sec.name with
    | some (pre, p) => if pre == repository then some p else none
    | none => some sec.name
  match path with
  | none => (root, true)
  | some p =>
      if headIs '/' p then
        match has_matching_rule memberships sec.entries with
        | some rights => insert_path root rights (segsChars p.data)
        | none => (root, true)
      else (root, true)

mutual

/-- finalize_tree: with the effective access at this node (its own access,
else the inherited one), set min and max to the effective rights combined
with every finalized child's min and max. -/
def finalize_tree (inherited : Rights) : Node → Node
  | .mk s a _ _ subs =>
      let eff := match a with
        | some acc => acc
        | none => inherited
      let subs2 := finalizeChildren eff subs
      .mk s a
        (subs2.foldl (fun mn p => Rights.band mn p.2.minRights) eff)
        (subs2.foldl (fun mx p => Rights.bor mx p.2.maxRights) eff)
        subs2

/-- finalize_tree applied to every child in the sub-node list. -/
def finalizeChildren (eff : Rights) : List (String × Node) → List (String × Node)
  | [] => []
  | p :: rest => (p.1, finalize_tree eff p.2) :: finalizeChildren eff rest

end

/-- The filtering and tree-construction phase of create_user_authz: fold
every config section's path rule into a prefix tree, then give the root
the deny-all default when no rule assigned it an access. -/
def filtered_root (cfg : Config) (repository : String)
    (user : Option String) : Node :=
  let memberships := get_memberships cfg user
  let root0 := create_node ""
  let root1 := cfg.foldl
    (fun r sec => (process_path_rule repository memberships r sec).1) root0
  match root1.access with
  | some _ => root1
  | none => root1.setAccess (some svn_authz_none)

/-- create_user_authz: filter the config down to USER and REPOSITORY, fold
the matching path rules into a prefix tree, give the root the deny-all
default when no rule assigned it an access, and finalize min/max rights
(the inherited access passed to finalize_tree is the root's own, which is
never absent at this point - effOf with any default computes it). -/
def create_user_authz (cfg : Config) (repository : String)
    (user : Option String) : Node :=
  let root2 := filtered_root cfg repository user
  finalize_tree (effOf svn_authz_none root2) root2

/-- Whether building the tree for (cfg, repository, user) keeps the
insert_path assertion intact at every insertion. -/
def create_user_authz_ok (cfg : Config) (repository : String)
    (user : Option String) : Bool :=
  let memberships := get_memberships cfg user
  (cfg.foldl
    (fun st sec =>
      let r := process_path_rule repository memberships st.1 sec
      (r.1, st.2 && r.2))
    (create_node "", true)).2

/-- The sequence of segments the lookup walk visits.  The C lookup first
strips trailing and leading '/' runs and then iterates next_segment, which
yields the maximal non-'/' runs of the remainder (sequences of '/' are
skipped as one separator); a path that normalizes to "" still yields one
empty segment, because the walk loop runs while the path pointer is
non-NULL.  Stripping and collapsing separators only discards empty tokens,
so the visited segments are exactly the nonempty tokens, or [""] when
there are none. -/
def walkSegs (l : List Char) : List String :=
  if segsChars l = [] then [""] else segsChars l

/-- The walk loop of lookup(): current node (none once the path has left
the tree), the rights of the last explicit access seen, and the current
min/max rights; three shortcuts may decide early, otherwise descend by one
segment; the final decision uses min (recursive) or the last access. -/
def lookupLoop (required : Rights) (recursive : Bool) :
    Option Node → Rights → Rights → Rights → List String → Bool
  | _, access, minR, _, [] =>
      if recursive then covers minR required else covers access required
  | none, access, minR, _, _ :: _ =>
      if recursive then covers minR required else covers access required
  | some cur, access, minR, maxR, seg :: rest =>
      if !(covers maxR required) then false
      else if covers minR required then true
      else if Rights.band minR required == Rights.band maxR required then
        covers minR required
      else
        match cur.subNodes with
        | [] => lookupLoop required recursive none access minR maxR rest
        | _ :: _ =>
            match assocFind cur.subNodes seg with
            | some next =>
                lookupLoop required recursive (some next)
                  (match next.access with
                   | some a => a
                   | none => access)
                  next.minRights next.maxRights rest
            | none =>
                lookupLoop required recursive none access access access rest

/-- lookup: follow PATH from ROOT and decide whether the REQUIRED access is
granted (everywhere at and below PATH when RECURSIVE). -/
def lookup (root : Node) (path : String) (required : Rights)
    (recursive : Bool) : Bool :=
  lookupLoop required recursive (some root)
    (match root.access with
     | some a => a
     | none => svn_authz_none)
    root.minRights root.maxRights (walkSegs path.data)

/-- svn_repos_authz_check_access: an absent repository name is the empty
string; an absent path asks for any access anywhere (root's max rights); a
present path must start with '/' (else the API asserts, modelled as none)
and is answered by lookup with the recursive flag split off the required
access. -/
def svn_repos_authz_check_access (cfg : Config) (repos_name : Option String)
    (path : Option String) (user : Option String) (required_access : Rights) :
    Option Bool :=
  let repos := match repos_name with
    | some r => r
    | none => ""
  let root := create_user_authz cfg repos user
  match path with
  | none => some (covers root.maxRights (clearRecursive required_access))
  | some p =>
      if headIs '/' p then
        some (lookup root (String.mk (p.data.drop 1))
          (clearRecursive required_access) required_access.recursive)
      else none

/-! The validator. -/

/-- Validation outcome errors.  All errors the C validator creates carry
SVN_ERR_AUTHZ_INVALID_CONFIG; fuelOut is this embedding's marker for
exhausting the recursion fuel of the group walk (the bounded stand-in for
the C recursion), kept distinct so that no theorem can mistake it for a
detected configuration error. -/
inductive AuthzError : Type where
  | invalidConfig (msg : String)
  | fuelOut
deriving DecidableEq, Repr

def undefined_group_msg (g : String) : String :=
  "An authz rule refers to group '" ++ g ++ "', which is undefined"

def circular_msg (sub grp : String) : String :=
  "Circular dependency between groups '" ++ sub ++ "' and '" ++ grp ++ "'"

def undefined_alias_msg (a : String) : String :=
  "An authz rule refers to alias '" ++ a ++ "', which is undefined"

/-- Fold a check over a list, stopping at the first error (the enumeration
callbacks return FALSE on error, which stops svn_config enumeration). -/
def firstErr {α : Type} (f : α → Except AuthzError Unit) :
    List α → Except AuthzError Unit
  | [] => .ok ()
  | x :: xs =>
      match f x with
      | .ok _ => firstErr f xs
      | .error e => .error e

/-- authz_group_walk: check GROUP's definition for undefined group/alias
references and circular dependencies, tracking the current recursion path
in CHECKED.  The C recursion depth is bounded because every recursive call
adds a new group to CHECKED; the fuel makes that bound explicit (see
group_walk_fuel) and exhausting it yields the distinct fuelOut outcome.
The member loop stops at the first error, exactly the C loop
that returns on the first SVN_ERR: an '@' member recurses (circular if
already in CHECKED; CHECKED is restored - i.e. reused - after a
successful recursion), an '&' member must be a defined alias, anything
else is a user literal. -/
def authz_group_walk (cfg : Config) : Nat → String → List String →
    Except AuthzError Unit
  | 0, _, _ => .error .fuelOut
  | fuel + 1, group, checked =>
      match configGet cfg "groups" group with
      | none => .error (.invalidConfig (undefined_group_msg group))
      | some value =>
          firstErr (fun m =>
            match m.data with
            | c :: cs =>
                if c = '@' then
                  if checked.contains (String.mk cs) then
                    .error (.invalidConfig
                      (circular_msg (String.mk cs) group))
                  else
                    authz_group_walk cfg fuel (String.mk cs)
                      (checked ++ [String.mk cs])
                else if c = '&' then
                  match configGet cfg "aliases" (String.mk cs) with
                  | none => .error (.invalidConfig
                      (undefined_alias_msg (String.mk cs)))
                  | some _ => .ok ()
                else .ok ()
            | [] => .ok ()) (splitChop value)

/-- One member of a group definition, checked: an '@' member recurses into
authz_group_walk (circular if already in CHECKED; CHECKED is restored -
i.e. reused - after a successful recursion), an '&' member must be a
defined alias, anything else is a user literal. -/
def walk_member_check (cfg : Config) (fuel : Nat) (group : String)
    (checked : List String) (m : String) : Except AuthzError Unit :=
  match m.data with
  | c :: cs =>
      if c = '@' then
        if checked.contains (String.mk cs) then
          .error (.invalidConfig (circular_msg (String.mk cs) group))
        else
          authz_group_walk cfg fuel (String.mk cs) (checked ++ [String.mk cs])
      else if c = '&' then
        match configGet cfg "aliases" (String.mk cs) with
        | none => .error (.invalidConfig (undefined_alias_msg (String.mk cs)))
        | some _ => .ok ()
      else .ok ()
  | [] => .ok ()

/-- The member loop of authz_group_walk as an early-exit scan; equal to the
error-keeping fold inside authz_group_walk (authz_group_walk_succ). -/
def walk_members (cfg : Config) (fuel : Nat) (group : String)
    (checked : List String) (ms : List String) : Except AuthzError Unit :=
  firstErr (walk_member_check cfg fuel group checked) ms

/-- The value part of a rule may contain only 'r', 'w' and whitespace
(svn_ctype_isspace, modelled as Char.isWhitespace); the first offending
character is reported. -/
def authz_validate_rule_value (rule_match_string value : String) :
    Except AuthzError Unit :=
  match value.data.find? (fun c => !(c == 'r') && !(c == 'w') && !c.isWhitespace) with
  | some c => .error (.invalidConfig ("The character '" ++ String.mk [c] ++
      "' in rule '" ++ rule_match_string ++ "' is not allowed in authz rules"))
  | none => .ok ()

/-- The group/alias/token reference checks of authz_validate_rule, applied
to the match string M after inversion stripping. -/
def authz_validate_rule_checks (cfg : Config) (rule_match_string m value : String) :
    Except AuthzError Unit :=
  match m.data with
  | c :: cs =>
      if c = '@' then
        match configGet cfg "groups" (String.mk cs) with
        | none => .error (.invalidConfig ("An authz rule refers to group '" ++
            rule_match_string ++ "', which is undefined"))
        | some _ => authz_validate_rule_value rule_match_string value
      else if c = '&' then
        match configGet cfg "aliases" (String.mk cs) with
        | none => .error (.invalidConfig ("An authz rule refers to alias '" ++
            rule_match_string ++ "', which is undefined"))
        | some _ => authz_validate_rule_value rule_match_string value
      else if c = '$' then
        if String.mk cs == "anonymous" || String.mk cs == "authenticated" then
          authz_validate_rule_value rule_match_string value
        else
          .error (.invalidConfig ("Unrecognized authz token '" ++
            rule_match_string ++ "'."))
      else authz_validate_rule_value rule_match_string value
  | [] => authz_validate_rule_value rule_match_string value

/-- authz_validate_rule: reject double inversion and the never-matching
'~*'; resolve group/alias/token references; check the value characters. -/
def authz_validate_rule (cfg : Config) (rule_match_string value : String) :
    Except AuthzError Unit :=
  if headIs '~' rule_match_string then
    if headIs '~' (String.mk (rule_match_string.data.drop 1)) then
      .error (.invalidConfig ("Rule '" ++ rule_match_string ++
        "' has more than one inversion; double negatives are not permitted."))
    else if String.mk (rule_match_string.data.drop 1) == "*" then
      .error (.invalidConfig ("Authz rules with match string '~*' are not " ++
        "allowed, because they never match anyone."))
    else
      authz_validate_rule_checks cfg rule_match_string
        (String.mk (rule_match_string.data.drop 1)) value
  else
    authz_validate_rule_checks cfg rule_match_string rule_match_string value

/-- Fuel that the group walk can never exhaust: its recursion path holds
pairwise distinct groups, all but the last of them defined, so its depth is
bounded by the number of [groups] entries. -/
def group_walk_fuel (cfg : Config) : Nat := (entriesOf cfg "groups").length + 2

/-- authz_validate_group: walk one group entry with an empty visited set. -/
def authz_validate_group (cfg : Config) (group : String) :
    Except AuthzError Unit :=
  authz_group_walk cfg (group_walk_fuel cfg) group []

/-- Modelled from the spec: svn_fspath__is_canonical (the dirent helpers
live outside this repository): the path starts with '/' and is either
exactly "/" or continues with nonempty '/'-separated segments (no
redundant or trailing '/'), none of which is "." or "..". -/
def is_canonical_fspath (p : String) : Bool :=
  match p.data with
  | '/' :: rest =>
      if rest.isEmpty then true
      else (splitOnChar '/' rest).all
        (fun seg => !seg.isEmpty && !(seg == ['.']) && !(seg == ['.', '.']))
  | _ => false

/-- authz_validate_section: the groups section gets the group checks, the
aliases section is always valid, and any other section must have a
canonical fspath (after the optional repository prefix) and valid rules. -/
def authz_validate_section (cfg : Config) (sec : ConfigSection) :
    Except AuthzError Unit :=
  if sec.name == "groups" then
    firstErr (fun e => authz_validate_group cfg e.1) sec.entries
  else if sec.name == "aliases" then .ok ()
  else
    let fspath := match splitRepoName sec.name with
      | some (_, p) => p
      | none => sec.name
    if is_canonical_fspath fspath then
      firstErr (fun e => authz_validate_rule cfg e.1 e.2) sec.entries
    else
      .error (.invalidConfig ("Section name '" ++ sec.name ++
        "' contains non-canonical fspath '" ++ fspath ++ "'"))

/-- svn_repos__authz_config_validate: step through the whole rule file,
stopping on the first error. -/
def svn_repos__authz_config_validate (cfg : Config) : Except AuthzError Unit :=
  firstErr (authz_validate_section cfg) cfg

/-- The members of a defined group (empty for an undefined group). -/
def group_members (cfg : Config) (g : String) : List String :=
  match configGet cfg "groups" g with
  | some v => splitChop v
  | none => []

/-- The group-reference edge of the [groups] graph: group G lists "@H"
among its members. -/
def group_edge (cfg : Config) (g h : String) : Bool :=
  (group_members cfg g).contains (String.mk ('@' :: h.data))

/-- A circular dependency in the [groups] section: a nonempty list of
groups each of which references the next, cyclically. -/
def IsGroupCycle (cfg : Config) (l : List String) : Prop :=
  l ≠ [] ∧ ∀ i, i < l.length →
    group_edge cfg (l.getD i "") (l.getD ((i + 1) % l.length) "") = true

instance (cfg : Config) (l : List String) : Decidable (IsGroupCycle cfg l) := by
  unfold IsGroupCycle
  infer_instance

/-- The keys of the [groups] section, deduplicated. -/
def defined_groups (cfg : Config) : List String :=
  ((entriesOf cfg "groups").map (fun e => e.1)).dedup

/-- How many defined groups are not yet on the walk's visited path. -/
def groups_left (cfg : Config) (checked : List String) : Nat :=
  ((defined_groups cfg).toFinset.filter (fun g => g ∉ checked)).card

/-! Spec-side description of the rule filter (for the refinement claim
about process_rule / has_matching_rule). -/

/-- Spec-side: an entry matches when, after stripping one leading '~'
(recording inversion), key-in-identity-set XOR inverted holds. -/
def ruleApplies (memberships : List String) (key : String) : Bool :=
  xor (memberships.contains
        (if headIs '~' key then String.mk (key.data.drop 1) else key))
      (headIs '~' key)

/-- Spec-side: the rights one entry value contributes: read if it contains
'r', write if it contains 'w'. -/
def entryRights (value : String) : Rights :=
  ⟨value.data.contains 'r', value.data.contains 'w', false⟩

/-- Spec-side collapse of one section against an identity set: the OR of
all matching entries' rights if at least one entry matches, else nothing. -/
def sectionRights (memberships : List String)
    (entries : List (String × String)) : Option Rights :=
  let matching := entries.filter (fun e => ruleApplies memberships e.1)
  if matching.isEmpty then none
  else some (matching.foldl (fun acc e => acc.bor (entryRights e.2)) svn_authz_none)

/-! The tree invariant established by finalize_tree. -/

/-- Well-formedness of a finalized (sub)tree under inherited rights INH: at
every node, min_rights is below the effective rights and below every
child's min_rights, max_rights is above both, and every child is
well-formed under the node's effective rights. -/
inductive WF : Rights → Node → Prop where
  | intro (inh : Rights) (n : Node)
      (hmin : n.minRights.sub (effOf inh n))
      (hmax : (effOf inh n).sub n.maxRights)
      (hminc : ∀ p ∈ n.subNodes, n.minRights.sub p.2.minRights)
      (hmaxc : ∀ p ∈ n.subNodes, p.2.maxRights.sub n.maxRights)
      (hrec : ∀ p ∈ n.subNodes, WF (effOf inh n) p.2) : WF inh n

/-! Reference walks over the tree: the node reached by a segment list and
the effective rights along it. -/

/-- The effective rights after following SEGS below CUR, where ACCESS is
the effective rights at CUR itself: descend while segments match, updating
the effective rights at every node with an explicit access; stop at the
first segment with no matching child. -/
def effAt (access : Rights) (cur : Node) : List String → Rights
  | [] => access
  | s :: rest =>
      match assocFind cur.subNodes s with
      | some c =>
          effAt (match c.access with
                 | some a => a
                 | none => access) c rest
      | none => access

/-- The tree node reached by following SEGS exactly, if every segment has a
child. -/
def nodeAt (cur : Node) : List String → Option Node
  | [] => some cur
  | s :: rest =>
      match assocFind cur.subNodes s with
      | some c => nodeAt c rest
      | none => none

instance : DecidableEq (Except AuthzError Unit) :=
  fun a b =>
    match a, b with
    | .ok (), .ok () => isTrue rfl
    | .error x, .error y =>
        match decEq x y with
        | isTrue h => isTrue (by rw [h])
        | isFalse h => isFalse (fun hc => h (by cases hc; rfl))
    | .ok (), .error _ => isFalse (fun hc => Except.noConfusion hc)
    | .error _, .ok () => isFalse (fun hc => Except.noConfusion hc)

/-! Basic facts about the rights bitset. -/

theorem Rights.sub_refl : ∀ a : Rights, a.sub a := by decide

theorem Rights.sub_trans : ∀ a b c : Rights, a.sub b → b.sub c → a.sub c := by
  decide

theorem Rights.band_sub_left : ∀ a b : Rights, (a.band b).sub a := by decide

theorem Rights.band_sub_right : ∀ a b : Rights, (a.band b).sub b := by decide

theorem Rights.sub_bor_left : ∀ a b : Rights, a.sub (a.bor b) := by decide

theorem Rights.sub_bor_right : ∀ a b : Rights, b.sub (a.bor b) := by decide

theorem covers_iff : ∀ a b : Rights, covers a b = true ↔ b.sub a := by decide

theorem covers_mono : ∀ a b r : Rights, a.sub b → covers a r = true →
    covers b r = true := by decide

theorem Rights.band_req_mono : ∀ a b r : Rights, a.sub b →
    (a.band r).sub (b.band r) := by decide

theorem Rights.sub_antisymm : ∀ a b : Rights, a.sub b → b.sub a → a = b := by
  decide

theorem Rights.band_eq_of_sub : ∀ a b r : Rights, a.sub b →
    b.sub a → Rights.band a r = Rights.band b r := by decide

/-! Folds of band/bor over a list, as finalize_tree computes min/max. -/

theorem foldl_band_sub_init {α : Type} (f : α → Rights) :
    ∀ (l : List α) (init : Rights),
      (l.foldl (fun a x => a.band (f x)) init).sub init := by
  intro l
  induction l with
  | nil => intro init; exact Rights.sub_refl init
  | cons x xs ih =>
      intro init
      exact Rights.sub_trans _ _ _ (ih (init.band (f x)))
        (Rights.band_sub_left init (f x))

theorem foldl_band_sub_mem {α : Type} (f : α → Rights) :
    ∀ (l : List α) (init : Rights) (x : α), x ∈ l →
      (l.foldl (fun a y => a.band (f y)) init).sub (f x) := by
  intro l
  induction l with
  | nil => intro init x hx; cases hx
  | cons y ys ih =>
      intro init x hx
      rcases List.mem_cons.mp hx with h | h
      · subst h
        exact Rights.sub_trans _ _ _ (foldl_band_sub_init f ys (init.band (f x)))
          (Rights.band_sub_right init (f x))
      · exact ih (init.band (f y)) x h

theorem sub_foldl_bor_init {α : Type} (f : α → Rights) :
    ∀ (l : List α) (init : Rights),
      init.sub (l.foldl (fun a x => a.bor (f x)) init) := by
  intro l
  induction l with
  | nil => intro init; exact Rights.sub_refl init
  | cons x xs ih =>
      intro init
      exact Rights.sub_trans _ _ _ (Rights.sub_bor_left init (f x))
        (ih (init.bor (f x)))

theorem sub_foldl_bor_mem {α : Type} (f : α → Rights) :
    ∀ (l : List α) (init : Rights) (x : α), x ∈ l →
      (f x).sub (l.foldl (fun a y => a.bor (f y)) init) := by
  intro l
  induction l with
  | nil => intro init x hx; cases hx
  | cons y ys ih =>
      intro init x hx
      rcases List.mem_cons.mp hx with h | h
      · subst h
        exact Rights.sub_trans _ _ _ (Rights.sub_bor_right init (f x))
          (sub_foldl_bor_init f ys (init.bor (f x)))
      · exact ih (init.bor (f y)) x h

theorem WF.min_sub_eff {inh : Rights} {n : Node} (h : WF inh n) :
    n.minRights.sub (effOf inh n) := by
  cases h; assumption

theorem WF.eff_sub_max {inh : Rights} {n : Node} (h : WF inh n) :
    (effOf inh n).sub n.maxRights := by
  cases h; assumption

theorem WF.min_sub_child {inh : Rights} {n : Node} (h : WF inh n) :
    ∀ p ∈ n.subNodes, n.minRights.sub p.2.minRights := by
  cases h; assumption

theorem WF.child_sub_max {inh : Rights} {n : Node} (h : WF inh n) :
    ∀ p ∈ n.subNodes, p.2.maxRights.sub n.maxRights := by
  cases h; assumption

theorem WF.child {inh : Rights} {n : Node} (h : WF inh n) :
    ∀ p ∈ n.subNodes, WF (effOf inh n) p.2 := by
  cases h; assumption

/-- Structural induction over the nested Node tree: to prove P everywhere
it is enough to prove it for a node given P for all entries of its
sub-node list. -/
theorem node_ind (P : Node → Prop)
    (h : ∀ s a mn mx subs, (∀ p ∈ subs, P p.2) → P (.mk s a mn mx subs)) :
    ∀ n, P n := by
  have key : ∀ (k : Nat) (n : Node), sizeOf n ≤ k → P n := by
    intro k
    induction k with
    | zero =>
        intro n hn
        cases n with
        | mk s a mn mx subs =>
            simp only [Node.mk.sizeOf_spec] at hn
            omega
    | succ k ih =>
        intro n hn
        cases n with
        | mk s a mn mx subs =>
            apply h
            intro p hp
            apply ih
            have h1 : sizeOf p < sizeOf subs := List.sizeOf_lt_of_mem hp
            have h2 : sizeOf p.2 < sizeOf p := by
              cases p with
              | mk p1 p2 => simp only [Prod.mk.sizeOf_spec]; omega
            simp only [Node.mk.sizeOf_spec] at hn
            omega
  intro n
  exact key (sizeOf n) n (Nat.le_refl _)

theorem finalizeChildren_eq (eff : Rights) :
    ∀ subs : List (String × Node),
      finalizeChildren eff subs = subs.map (fun p => (p.1, finalize_tree eff p.2)) := by
  intro subs
  induction subs with
  | nil => rfl
  | cons p rest ih => simp [finalizeChildren, ih]

theorem finalize_tree_access (inh : Rights) (n : Node) :
    (finalize_tree inh n).access = n.access := by
  cases n with
  | mk s a mn mx subs => simp [finalize_tree, Node.access]

theorem effOf_finalize (x inh : Rights) (n : Node) :
    effOf x (finalize_tree inh n) = effOf x n := by
  simp [effOf, finalize_tree_access]

theorem effOf_effOf (inh : Rights) (n : Node) :
    effOf (effOf inh n) n = effOf inh n := by
  cases n with
  | mk s a mn mx subs => cases a <;> simp [effOf, Node.access]

theorem finalize_tree_mk (inh : Rights) (s : String) (a : Option Rights)
    (mn mx : Rights) (subs : List (String × Node)) :
    finalize_tree inh (Node.mk s a mn mx subs) =
      Node.mk s a
        ((finalizeChildren (effOf inh (Node.mk s a mn mx subs)) subs).foldl
          (fun x p => Rights.band x p.2.minRights)
          (effOf inh (Node.mk s a mn mx subs)))
        ((finalizeChildren (effOf inh (Node.mk s a mn mx subs)) subs).foldl
          (fun x p => Rights.bor x p.2.maxRights)
          (effOf inh (Node.mk s a mn mx subs)))
        (finalizeChildren (effOf inh (Node.mk s a mn mx subs)) subs) := rfl

/-- finalize_tree establishes the WF invariant at every node. -/
theorem finalize_WF : ∀ (n : Node) (inh : Rights), WF inh (finalize_tree inh n) := by
  refine node_ind (fun n => ∀ inh, WF inh (finalize_tree inh n)) ?_
  intro s a mn mx subs ih inh
  rw [finalize_tree_mk]
  refine WF.intro _ _ ?_ ?_ ?_ ?_ ?_
  · exact foldl_band_sub_init (fun p : String × Node => p.2.minRights) _ _
  · exact sub_foldl_bor_init (fun p : String × Node => p.2.maxRights) _ _
  · intro p hp
    exact foldl_band_sub_mem (fun q : String × Node => q.2.minRights) _ _ p hp
  · intro p hp
    exact sub_foldl_bor_mem (fun q : String × Node => q.2.maxRights) _ _ p hp
  · intro p hp
    rw [finalizeChildren_eq] at hp
    rcases List.mem_map.mp hp with ⟨q, hq, hpq⟩
    have := ih q hq (effOf inh (Node.mk s a mn mx subs))
    rw [← hpq] at *
    exact this

theorem assocFind_mem {l : List (String × Node)} {k : String} {c : Node}
    (h : assocFind l k = some c) : ∃ p ∈ l, p.2 = c := by
  unfold assocFind at h
  cases hf : l.find? (fun p => p.1 == k) with
  | none => rw [hf] at h; cases h
  | some p =>
      rw [hf] at h
      exact ⟨p, List.mem_of_find?_eq_some hf, by cases h; rfl⟩

theorem covers_congr : ∀ x y r : Rights, Rights.band x r = Rights.band y r →
    covers x r = covers y r := by decide

theorem band_between : ∀ a b x r : Rights, a.sub x → x.sub b →
    Rights.band a r = Rights.band b r → Rights.band x r = Rights.band a r := by
  decide

/-- The minimal rights of a well-formed node are below the effective rights
of every (potential) path below it. -/
theorem min_sub_effAt : ∀ (segs : List String) (inh : Rights) (cur : Node),
    WF inh cur → cur.minRights.sub (effAt (effOf inh cur) cur segs) := by
  intro segs
  induction segs with
  | nil => intro inh cur h; exact h.min_sub_eff
  | cons s rest ih =>
      intro inh cur h
      show cur.minRights.sub (effAt (effOf inh cur) cur (s :: rest))
      cases hf : assocFind cur.subNodes s with
      | none => simpa [effAt, hf] using h.min_sub_eff
      | some c =>
          rcases assocFind_mem hf with ⟨p, hp, hpc⟩
          have hwf : WF (effOf inh cur) c := by
            have := h.child p hp
            rwa [hpc] at this
          have hmc : cur.minRights.sub c.minRights := by
            have := h.min_sub_child p hp
            rwa [hpc] at this
          have := ih (effOf inh cur) c hwf
          simp only [effAt, hf]
          exact Rights.sub_trans _ _ _ hmc this

/-- The effective rights of every (potential) path below a well-formed node
are below its maximal rights. -/
theorem effAt_sub_max : ∀ (segs : List String) (inh : Rights) (cur : Node),
    WF inh cur → (effAt (effOf inh cur) cur segs).sub cur.maxRights := by
  intro segs
  induction segs with
  | nil => intro inh cur h; exact h.eff_sub_max
  | cons s rest ih =>
      intro inh cur h
      cases hf : assocFind cur.subNodes s with
      | none => simpa [effAt, hf] using h.eff_sub_max
      | some c =>
          rcases assocFind_mem hf with ⟨p, hp, hpc⟩
          have hwf : WF (effOf inh cur) c := by
            have := h.child p hp
            rwa [hpc] at this
          have hcm : c.maxRights.sub cur.maxRights := by
            have := h.child_sub_max p hp
            rwa [hpc] at this
          have := ih (effOf inh cur) c hwf
          simp only [effAt, hf]
          exact Rights.sub_trans _ _ _ this hcm

theorem lookupLoop_none_eq (r : Rights) (rec : Bool) (a mn mx : Rights) :
    ∀ segs, lookupLoop r rec none a mn mx segs =
      if rec then covers mn r else covers a r := by
  intro segs
  cases segs with
  | nil => rfl
  | cons s rest => rfl

theorem match_access_effOf (x : Rights) (n : Node) :
    (match n.access with
     | some a => a
     | none => x) = effOf x n := rfl

/-- The non-recursive lookup walk computes exactly whether the effective
rights at the queried path cover the required rights: each shortcut agrees
with the full walk. -/
theorem lookupLoop_nonrec (r : Rights) :
    ∀ (segs : List String) (inh : Rights) (cur : Node), WF inh cur →
      lookupLoop r false (some cur) (effOf inh cur) cur.minRights cur.maxRights segs
        = covers (effAt (effOf inh cur) cur segs) r := by
  intro segs
  induction segs with
  | nil => intro inh cur h; rfl
  | cons s rest ih =>
      intro inh cur h
      cases hmx : covers cur.maxRights r with
      | false =>
          have hL : lookupLoop r false (some cur) (effOf inh cur) cur.minRights
              cur.maxRights (s :: rest) = false := by
            simp [lookupLoop, hmx]
          rw [hL]
          cases hc : covers (effAt (effOf inh cur) cur (s :: rest)) r with
          | false => rfl
          | true =>
              have := covers_mono _ _ _ (effAt_sub_max (s :: rest) inh cur h) hc
              rw [hmx] at this
              cases this
      | true =>
          cases hmn : covers cur.minRights r with
          | true =>
              have hL : lookupLoop r false (some cur) (effOf inh cur) cur.minRights
                  cur.maxRights (s :: rest) = true := by
                simp [lookupLoop, hmx, hmn]
              rw [hL]
              exact (covers_mono _ _ _ (min_sub_effAt (s :: rest) inh cur h) hmn).symm
          | false =>
              cases heq : (Rights.band cur.minRights r == Rights.band cur.maxRights r) with
              | true =>
                  have heq2 : Rights.band cur.minRights r = Rights.band cur.maxRights r :=
                    eq_of_beq heq
                  have hband := band_between _ _ _ r
                    (min_sub_effAt (s :: rest) inh cur h)
                    (effAt_sub_max (s :: rest) inh cur h) heq2
                  have hL : lookupLoop r false (some cur) (effOf inh cur) cur.minRights
                      cur.maxRights (s :: rest) = covers cur.minRights r := by
                    simp [lookupLoop, hmx, hmn, heq]
                  rw [hL]
                  exact (covers_congr _ _ _ hband).symm
              | false =>
                  cases hsn : cur.subNodes with
                  | nil =>
                      have hL : lookupLoop r false (some cur) (effOf inh cur) cur.minRights
                          cur.maxRights (s :: rest) =
                          lookupLoop r false none (effOf inh cur) cur.minRights
                            cur.maxRights rest := by
                        simp [lookupLoop, hmx, hmn, heq, hsn]
                      rw [hL, lookupLoop_none_eq]
                      simp [effAt, assocFind, hsn]
                  | cons p ps =>
                      cases hf : assocFind (p :: ps) s with
                      | some next =>
                          rcases assocFind_mem hf with ⟨q, hq, hqc⟩
                          have hq2 : q ∈ cur.subNodes := by rw [hsn]; exact hq
                          have hwf : WF (effOf inh cur) next := by
                            have := h.child q hq2
                            rwa [hqc] at this
                          have hL : lookupLoop r false (some cur) (effOf inh cur)
                              cur.minRights cur.maxRights (s :: rest) =
                              lookupLoop r false (some next) (effOf (effOf inh cur) next)
                                next.minRights next.maxRights rest := by
                            simp [lookupLoop, hmx, hmn, heq, hsn, hf, match_access_effOf]
                          rw [hL, ih (effOf inh cur) next hwf]
                          simp [effAt, hsn, hf, match_access_effOf]
                      | none =>
                          have hL : lookupLoop r false (some cur) (effOf inh cur)
                              cur.minRights cur.maxRights (s :: rest) =
                              lookupLoop r false none (effOf inh cur) (effOf inh cur)
                                (effOf inh cur) rest := by
                            simp [lookupLoop, hmx, hmn, heq, hsn, hf]
                          rw [hL, lookupLoop_none_eq]
                          simp [effAt, hsn, hf]

/-- When the recursive lookup walk grants the required rights for a path,
the effective rights of that path and of every extension of it cover the
required rights. -/
theorem lookupLoop_rec (r : Rights) :
    ∀ (segs : List String) (inh : Rights) (cur : Node), WF inh cur →
      lookupLoop r true (some cur) (effOf inh cur) cur.minRights cur.maxRights segs
        = true →
      ∀ rest2 : List String,
        covers (effAt (effOf inh cur) cur (segs ++ rest2)) r = true := by
  intro segs
  induction segs with
  | nil =>
      intro inh cur h hl rest2
      have hmn : covers cur.minRights r = true := hl
      exact covers_mono _ _ _ (min_sub_effAt rest2 inh cur h) hmn
  | cons s rest ih =>
      intro inh cur h hl rest2
      cases hmx : covers cur.maxRights r with
      | false =>
          rw [show lookupLoop r true (some cur) (effOf inh cur) cur.minRights
              cur.maxRights (s :: rest) = false by simp [lookupLoop, hmx]] at hl
          cases hl
      | true =>
          cases hmn : covers cur.minRights r with
          | true =>
              exact covers_mono _ _ _ (min_sub_effAt ((s :: rest) ++ rest2) inh cur h) hmn
          | false =>
              cases heq : (Rights.band cur.minRights r == Rights.band cur.maxRights r) with
              | true =>
                  rw [show lookupLoop r true (some cur) (effOf inh cur) cur.minRights
                      cur.maxRights (s :: rest) = covers cur.minRights r by
                    simp [lookupLoop, hmx, hmn, heq]] at hl
                  rw [hmn] at hl
                  cases hl
              | false =>
                  cases hsn : cur.subNodes with
                  | nil =>
                      rw [show lookupLoop r true (some cur) (effOf inh cur) cur.minRights
                          cur.maxRights (s :: rest) =
                          lookupLoop r true none (effOf inh cur) cur.minRights
                            cur.maxRights rest by
                        simp [lookupLoop, hmx, hmn, heq, hsn],
                        lookupLoop_none_eq] at hl
                      rw [hmn] at hl
                      cases hl
                  | cons p ps =>
                      cases hf : assocFind (p :: ps) s with
                      | some next =>
                          rcases assocFind_mem hf with ⟨q, hq, hqc⟩
                          have hq2 : q ∈ cur.subNodes := by rw [hsn]; exact hq
                          have hwf : WF (effOf inh cur) next := by
                            have := h.child q hq2
                            rwa [hqc] at this
                          rw [show lookupLoop r true (some cur) (effOf inh cur)
                              cur.minRights cur.maxRights (s :: rest) =
                              lookupLoop r true (some next) (effOf (effOf inh cur) next)
                                next.minRights next.maxRights rest by
                            simp [lookupLoop, hmx, hmn, heq, hsn, hf,
                              match_access_effOf]] at hl
                          have := ih (effOf inh cur) next hwf hl rest2
                          simpa [effAt, hsn, hf, match_access_effOf] using this
                      | none =>
                          rw [show lookupLoop r true (some cur) (effOf inh cur)
                              cur.minRights cur.maxRights (s :: rest) =
                              lookupLoop r true none (effOf inh cur) (effOf inh cur)
                                (effOf inh cur) rest by
                            simp [lookupLoop, hmx, hmn, heq, hsn, hf],
                            lookupLoop_none_eq] at hl
                          simpa [effAt, hsn, hf] using hl

/-- The tree create_user_authz returns satisfies the WF invariant. -/
theorem create_user_authz_WF (cfg : Config) (repository : String)
    (user : Option String) :
    WF (effOf svn_authz_none (create_user_authz cfg repository user))
       (create_user_authz cfg repository user) := by
  have h1 : create_user_authz cfg repository user =
      finalize_tree (effOf svn_authz_none (filtered_root cfg repository user))
        (filtered_root cfg repository user) := rfl
  rw [h1, effOf_finalize]
  exact finalize_WF _ _

/-- lookup, non-recursively, decides exactly whether the effective rights
at the queried path cover the required rights. -/
theorem lookup_eq_effAt (T : Node) (hWF : WF (effOf svn_authz_none T) T)
    (path : String) (r : Rights) :
    lookup T path r false =
      covers (effAt (effOf svn_authz_none T) T (walkSegs path.data)) r := by
  have h2 := lookupLoop_nonrec r (walkSegs path.data) (effOf svn_authz_none T) T hWF
  rw [effOf_effOf] at h2
  exact h2

/-- A recursive lookup that grants the required rights guarantees them for
the queried segments extended by any further segments. -/
theorem lookup_rec_sound (T : Node) (hWF : WF (effOf svn_authz_none T) T)
    (path : String) (r : Rights) (h : lookup T path r true = true) :
    ∀ rest2 : List String,
      covers (effAt (effOf svn_authz_none T) T (walkSegs path.data ++ rest2)) r
        = true := by
  have h2 := lookupLoop_rec r (walkSegs path.data) (effOf svn_authz_none T) T hWF
  rw [effOf_effOf] at h2
  exact h2 h

/-! Path-segment algebra. -/

theorem splitOnChar_ne_nil (sep : Char) : ∀ l, splitOnChar sep l ≠ [] := by
  intro l
  induction l with
  | nil => simp [splitOnChar]
  | cons c rest ih =>
      by_cases hc : c = sep
      · simp [splitOnChar, hc]
      · simp only [splitOnChar, if_neg hc]
        cases h : splitOnChar sep rest with
        | nil => exact absurd h ih
        | cons t ts => simp

theorem splitOnChar_append (sep : Char) :
    ∀ x y, splitOnChar sep (x ++ sep :: y) =
      splitOnChar sep x ++ splitOnChar sep y := by
  intro x y
  induction x with
  | nil => simp [splitOnChar]
  | cons c cx ih =>
      by_cases hc : c = sep
      · subst hc
        simp [splitOnChar, ih]
      · simp only [List.cons_append, splitOnChar, if_neg hc, List.append_eq]
        rw [ih]
        cases h : splitOnChar sep cx with
        | nil => exact absurd h (splitOnChar_ne_nil sep cx)
        | cons t ts => simp [h]

theorem segsChars_append (x y : List Char) :
    segsChars (x ++ '/' :: y) = segsChars x ++ segsChars y := by
  unfold segsChars
  rw [splitOnChar_append, List.filter_append, List.map_append]

theorem walkSegs_ne_nil (l : List Char) : walkSegs l ≠ [] := by
  by_cases h : segsChars l = [] <;> simp [walkSegs, h]

theorem walkSegs_append (x y : List Char) (hx : segsChars x ≠ []) :
    walkSegs (x ++ '/' :: y) = walkSegs x ++ segsChars y := by
  unfold walkSegs
  rw [segsChars_append]
  have hne : segsChars x ++ segsChars y ≠ [] := by
    intro h
    exact hx (List.append_eq_nil.mp h).1
  simp [hx, hne]

/-! Claim theorems: deny-by-default, recursive grants, min/max invariant,
empty requirement, repository scoping. -/

theorem covers_zero : ∀ x : Rights, covers x svn_authz_none = true := by decide

theorem covers_zero_false : ∀ req : Rights,
    req.read = true ∨ req.write = true →
    covers svn_authz_none (clearRecursive req) = false := by decide

theorem lookupLoop_zero_tree (req : Rights) (rec : Bool)
    (hreq : covers svn_authz_none req = false) :
    ∀ segs, segs ≠ [] →
      lookupLoop req rec
        (some (Node.mk "" (some svn_authz_none) svn_authz_none svn_authz_none []))
        svn_authz_none svn_authz_none svn_authz_none segs = false := by
  intro segs hs
  cases segs with
  | nil => exact absurd rfl hs
  | cons s rest => simp [lookupLoop, hreq]

/-- C1: Deny-by-default.  A config with no rules at all grants no access
for any user / repository / path as soon as the required access contains
read or write, and the compiled tree's root carries the default deny-all
access record. -/
theorem C1_deny_by_default (repos_name path user : Option String)
    (required : Rights) (h : required.read = true ∨ required.write = true) :
    svn_repos_authz_check_access [] repos_name path user required ≠ some true ∧
    (create_user_authz []
        (match repos_name with
         | some r => r
         | none => "") user).access = some svn_authz_none := by
  have hT : ∀ repo : String, create_user_authz [] repo user =
      Node.mk "" (some svn_authz_none) svn_authz_none svn_authz_none [] :=
    fun _ => rfl
  refine ⟨?_, by rw [hT]; rfl⟩
  cases path with
  | none =>
      show some (covers svn_authz_none (clearRecursive required)) ≠ some true
      rw [covers_zero_false required h]
      simp
  | some p =>
      cases hp : headIs '/' p with
      | false =>
          show (if headIs '/' p then _ else none) ≠ some true
          rw [hp]
          simp
      | true =>
          have hstep : svn_repos_authz_check_access [] repos_name (some p) user
              required = some (lookup
                (create_user_authz []
                  (match repos_name with
                   | some r => r
                   | none => "") user)
                (String.mk (p.data.drop 1)) (clearRecursive required)
                required.recursive) := by
            simp [svn_repos_authz_check_access, hp]
          rw [hstep, hT]
          have hl : lookup
              (Node.mk "" (some svn_authz_none) svn_authz_none svn_authz_none [])
              (String.mk (p.data.drop 1)) (clearRecursive required)
              required.recursive = false := by
            unfold lookup
            exact lookupLoop_zero_tree (clearRecursive required)
              required.recursive (covers_zero_false required h) _
              (walkSegs_ne_nil _)
          rw [hl]
          simp

/-- C1 witness at a concrete input. -/
theorem C1_deny_by_default_witness :
    (svn_authz_read.read = true ∨ svn_authz_read.write = true) ∧
    (svn_repos_authz_check_access [] none (some "/trunk") (some "alice")
        svn_authz_read ≠ some true ∧
      (create_user_authz [] "" (some "alice")).access = some svn_authz_none) :=
  ⟨Or.inl rfl,
    C1_deny_by_default none (some "/trunk") (some "alice") svn_authz_read
      (Or.inl rfl)⟩

/-- C2 counterexample: with the rules "[/] * = rw" and "[/trunk] * =", the
recursive read query on the root path "/" is granted although the
non-recursive read query on its extension "/trunk" is denied - the walk
over the root's single empty segment overwrites the subtree minimum with
the root's own access before the recursive decision. -/
theorem C2_counterexample :
    svn_repos_authz_check_access
        [⟨"/", [("*", "rw")]⟩, ⟨"/trunk", [("*", "")]⟩]
        none (some "/") none ⟨true, false, true⟩ = some true ∧
      svn_repos_authz_check_access
        [⟨"/", [("*", "rw")]⟩, ⟨"/trunk", [("*", "")]⟩]
        none (some "/trunk") none ⟨true, false, false⟩ = some false := by
  exact ⟨by decide, by decide⟩

/-- C2, amended: for every compiled tree and any required rights, a
recursive grant at a path P with at least one nonempty segment (i.e. P is
not the repository root) extends to a non-recursive grant at every
extension P ++ "/" ++ s of P. -/
theorem C2_recursive_grant_extends (cfg : Config) (repository : String)
    (user : Option String) (r : Rights) (P s : String)
    (hP : segsChars P.data ≠ [])
    (h : lookup (create_user_authz cfg repository user) P r true = true) :
    lookup (create_user_authz cfg repository user) (P ++ "/" ++ s) r false
      = true := by
  have hWF := create_user_authz_WF cfg repository user
  rw [lookup_eq_effAt _ hWF]
  have hdata : (P ++ "/" ++ s).data = P.data ++ '/' :: s.data := by
    simp [String.data_append]
  rw [hdata, walkSegs_append P.data s.data hP]
  exact lookup_rec_sound _ hWF P r h (segsChars s.data)

/-- C2 witness at a concrete input. -/
theorem C2_recursive_grant_extends_witness :
    lookup (create_user_authz [⟨"/", [("*", "rw")]⟩] "" none)
      ("trunk" ++ "/" ++ "x") svn_authz_read false = true :=
  C2_recursive_grant_extends [⟨"/", [("*", "rw")]⟩] "" none svn_authz_read
    "trunk" "x" (by decide) (by decide)

theorem nodeAt_bounds : ∀ (segs : List String) (inh : Rights) (cur : Node),
    WF inh cur → ∀ N, nodeAt cur segs = some N →
      N.minRights.sub (effAt (effOf inh cur) cur segs) ∧
      (effAt (effOf inh cur) cur segs).sub N.maxRights := by
  intro segs
  induction segs with
  | nil =>
      intro inh cur h N hN
      have : cur = N := by
        simpa [nodeAt] using hN
      rw [← this]
      exact ⟨h.min_sub_eff, h.eff_sub_max⟩
  | cons s rest ih =>
      intro inh cur h N hN
      cases hf : assocFind cur.subNodes s with
      | none => rw [nodeAt, hf] at hN; cases hN
      | some c =>
          rw [nodeAt, hf] at hN
          rcases assocFind_mem hf with ⟨q, hq, hqc⟩
          have hwf : WF (effOf inh cur) c := by
            have := h.child q hq
            rwa [hqc] at this
          have := ih (effOf inh cur) c hwf N hN
          simpa [effAt, hf, match_access_effOf] using this

/-- C4: Min/max tree invariant.  At every node N of every compiled tree,
min_rights is below the effective rights at N (its own access if set, else
the nearest ancestor's), which are below max_rights; in particular
min_rights is below max_rights. -/
theorem C4_min_max_invariant (cfg : Config) (repository : String)
    (user : Option String) (segs : List String) (N : Node)
    (h : nodeAt (create_user_authz cfg repository user) segs = some N) :
    N.minRights.sub
        (effAt (effOf svn_authz_none (create_user_authz cfg repository user))
          (create_user_authz cfg repository user) segs) ∧
      (effAt (effOf svn_authz_none (create_user_authz cfg repository user))
          (create_user_authz cfg repository user) segs).sub N.maxRights ∧
      N.minRights.sub N.maxRights := by
  have hWF := create_user_authz_WF cfg repository user
  have hb := nodeAt_bounds segs
    (effOf svn_authz_none (create_user_authz cfg repository user))
    (create_user_authz cfg repository user) hWF N h
  rw [effOf_effOf] at hb
  exact ⟨hb.1, hb.2, Rights.sub_trans _ _ _ hb.1 hb.2⟩

/-- C4 witness at a concrete input (the root node of a small tree). -/
theorem C4_min_max_invariant_witness :
    (create_user_authz [⟨"/", [("*", "r")]⟩] "" none).minRights.sub
        (effAt (effOf svn_authz_none (create_user_authz [⟨"/", [("*", "r")]⟩] "" none))
          (create_user_authz [⟨"/", [("*", "r")]⟩] "" none) []) ∧
      (effAt (effOf svn_authz_none (create_user_authz [⟨"/", [("*", "r")]⟩] "" none))
          (create_user_authz [⟨"/", [("*", "r")]⟩] "" none) []).sub
        (create_user_authz [⟨"/", [("*", "r")]⟩] "" none).maxRights ∧
      (create_user_authz [⟨"/", [("*", "r")]⟩] "" none).minRights.sub
        (create_user_authz [⟨"/", [("*", "r")]⟩] "" none).maxRights :=
  C4_min_max_invariant [⟨"/", [("*", "r")]⟩] "" none []
    (create_user_authz [⟨"/", [("*", "r")]⟩] "" none) rfl

theorem lookupLoop_zero_required (req : Rights) (rec : Bool) (cur : Node)
    (a mn mx : Rights) (hreq : req = svn_authz_none) :
    ∀ segs, segs ≠ [] → lookupLoop req rec (some cur) a mn mx segs = true := by
  intro segs h
  cases segs with
  | nil => exact absurd rfl h
  | cons s rest => simp [lookupLoop, hreq, covers_zero]

/-- C9: a required access containing neither read nor write (whatever the
recursive flag) is always granted, for any loaded config, repository name,
user, and path - absent or present and starting with '/'. -/
theorem C9_empty_requirement (cfg : Config) (repos_name path user : Option String)
    (required : Rights) (hr : required.read = false) (hw : required.write = false)
    (hp : ∀ p, path = some p → headIs '/' p = true) :
    svn_repos_authz_check_access cfg repos_name path user required = some true := by
  have hreq : clearRecursive required = svn_authz_none := by
    rcases required with ⟨a, b, c⟩
    simp only at hr hw
    rw [clearRecursive, hr, hw]
    rfl
  cases path with
  | none =>
      show some (covers _ (clearRecursive required)) = some true
      rw [hreq, covers_zero]
  | some p =>
      have hp2 := hp p rfl
      have hstep : svn_repos_authz_check_access cfg repos_name (some p) user
          required = some (lookup
            (create_user_authz cfg
              (match repos_name with
               | some r => r
               | none => "") user)
            (String.mk (p.data.drop 1)) (clearRecursive required)
            required.recursive) := by
        simp [svn_repos_authz_check_access, hp2]
      have key : ∀ repos : String,
          lookup (create_user_authz cfg repos user)
            (String.mk (p.data.drop 1)) (clearRecursive required)
            required.recursive = true := by
        intro repos
        unfold lookup
        exact lookupLoop_zero_required _ _ _ _ _ _ hreq _ (walkSegs_ne_nil _)
      rw [hstep, key]

/-- C9 witness at a concrete input. -/
theorem C9_empty_requirement_witness :
    svn_repos_authz_check_access [⟨"/", [("*", "")]⟩] none (some "/secret")
      (some "alice") ⟨false, false, true⟩ = some true :=
  C9_empty_requirement [⟨"/", [("*", "")]⟩] none (some "/secret") (some "alice")
    ⟨false, false, true⟩ rfl rfl
    (by
      intro p hp
      cases hp
      decide)

/-- C6 counterexample: a path-rule section named ":/" does carry a ':'
(an empty repository prefix), yet it applies - and grants access - when the
caller passes no repository name, while the config without it grants
nothing; so it is not true that only sections without a repo prefix apply. -/
theorem C6_counterexample :
    svn_repos_authz_check_access [⟨":/", [("*", "rw")]⟩] none (some "/x") none
        svn_authz_read = some true ∧
      svn_repos_authz_check_access [] none (some "/x") none
        svn_authz_read = some false := by
  exact ⟨by decide, by decide⟩

/-- C6, amended: a path-rule section whose name carries a repository prefix
different from the query's repository contributes nothing to the compiled
tree (in particular, with an absent repository name - treated as the empty
string - every section with a nonempty repository prefix is skipped); and
an absent repository name behaves exactly like the empty string. -/
theorem C6_repository_scoping (cfg : Config) (repository : String)
    (memberships : List String) (root : Node) (sec : ConfigSection)
    (pre rest : String) (hsplit : splitRepoName sec.name = some (pre, rest))
    (hne : pre ≠ repository) (path user : Option String) (required : Rights) :
    process_path_rule repository memberships root sec = (root, true) ∧
      svn_repos_authz_check_access cfg none path user required =
        svn_repos_authz_check_access cfg (some "") path user required := by
  constructor
  · unfold process_path_rule
    rw [hsplit]
    simp [hne]
  · rfl

/-- C6 witness at a concrete input. -/
theorem C6_repository_scoping_witness :
    process_path_rule "" ["*"] (create_node "") ⟨"repoA:/", [("*", "rw")]⟩ =
        (create_node "", true) ∧
      svn_repos_authz_check_access [⟨"repoA:/", [("*", "rw")]⟩] none
          (some "/x") none svn_authz_read =
        svn_repos_authz_check_access [⟨"repoA:/", [("*", "rw")]⟩] (some "")
          (some "/x") none svn_authz_read :=
  C6_repository_scoping [⟨"repoA:/", [("*", "rw")]⟩] "" ["*"] (create_node "")
    ⟨"repoA:/", [("*", "rw")]⟩ "repoA" "/" (by decide) (by decide)
    (some "/x") none svn_authz_read

/-! Rule collapse (C3). -/

theorem process_rule_eq (memberships : List String) (st : Bool × Rights)
    (e : String × String) :
    process_rule memberships st e =
      if ruleApplies memberships e.1 then (true, st.2.bor (entryRights e.2))
      else st := by
  have hb : ∀ i m : Bool, (i == !m) = xor m i := by decide
  have hx : Rights.bor
      (if e.2.data.contains 'r' then svn_authz_read else svn_authz_none)
      (if e.2.data.contains 'w' then svn_authz_write else svn_authz_none) =
      entryRights e.2 := by
    unfold entryRights
    cases hr : e.2.data.contains 'r' <;> cases hw : e.2.data.contains 'w' <;>
      rfl
  unfold process_rule ruleApplies
  simp only [hb, hx]

theorem foldl_process_rule (memberships : List String) :
    ∀ (entries : List (String × String)) (st : Bool × Rights),
      entries.foldl (process_rule memberships) st =
        (st.1 || !(entries.filter (fun e => ruleApplies memberships e.1)).isEmpty,
         (entries.filter (fun e => ruleApplies memberships e.1)).foldl
           (fun acc e => acc.bor (entryRights e.2)) st.2) := by
  intro entries
  induction entries with
  | nil => intro st; simp
  | cons e es ih =>
      intro st
      rw [List.foldl_cons, process_rule_eq]
      by_cases ha : ruleApplies memberships e.1 = true
      · rw [if_pos ha, ih]
        simp [List.filter_cons, ha]
      · rw [if_neg ha, ih]
        simp only [List.filter_cons]
        rw [if_neg (by simpa using ha)]

/-- C3: Rule-collapse semantics.  has_matching_rule computes, for any
identity set and section, exactly the spec's collapse: one leading '~' is
stripped and recorded as inversion, an entry contributes the OR of read
('r' in value) and write ('w' in value) exactly when membership XOR
inversion holds, the section yields a rights set iff some entry matched -
and one entry step never removes rights from the accumulator. -/
theorem C3_rule_collapse (memberships : List String)
    (entries : List (String × String)) :
    has_matching_rule memberships entries = sectionRights memberships entries ∧
    ∀ (st : Bool × Rights) (e : String × String),
      st.2.sub (process_rule memberships st e).2 := by
  constructor
  · unfold has_matching_rule sectionRights
    rw [foldl_process_rule]
    by_cases h : (entries.filter (fun e => ruleApplies memberships e.1)).isEmpty
    · simp [h]
    · simp [h]
  · intro st e
    rw [process_rule_eq]
    by_cases ha : ruleApplies memberships e.1 = true
    · rw [if_pos ha]
      exact Rights.sub_bor_left _ _
    · rw [if_neg ha]
      exact Rights.sub_refl _

/-! Identity sets (C5, C10). -/

theorem string_mk_data (s : String) : String.mk s.data = s := rfl

theorem contains_iff_mem (l : List String) (x : String) :
    l.contains x = true ↔ x ∈ l := by
  constructor
  · exact List.mem_of_elem_eq_true
  · exact List.elem_eq_true_of_mem

theorem mem_set_add_self (l : List String) (s : String) :
    s ∈ set_add_string l s := by
  unfold set_add_string
  by_cases h : l.contains s = true
  · rw [if_pos h]
    exact (contains_iff_mem l s).mp h
  · rw [if_neg h]
    exact List.mem_append_right l (List.mem_singleton_self s)

theorem mem_set_add_mono (l : List String) (s x : String) (h : x ∈ l) :
    x ∈ set_add_string l s := by
  unfold set_add_string
  by_cases hc : l.contains s = true
  · rwa [if_pos hc]
  · rw [if_neg hc]
    exact List.mem_append_left _ h

theorem mem_set_add_elim (l : List String) (s x : String)
    (h : x ∈ set_add_string l s) : x ∈ l ∨ x = s := by
  unfold set_add_string at h
  by_cases hc : l.contains s = true
  · rw [if_pos hc] at h
    exact Or.inl h
  · rw [if_neg hc] at h
    rcases List.mem_append.mp h with h2 | h2
    · exact Or.inl h2
    · exact Or.inr (List.mem_singleton.mp h2)

theorem mem_inner_fold (gs : List String) :
    ∀ (st : List String × List String) (x : String), x ∈ st.1 →
      x ∈ (gs.foldl
        (fun (st : List String × List String) g =>
          if st.1.contains g then st else (st.1 ++ [g], st.2 ++ [g])) st).1 := by
  induction gs with
  | nil => intro st x h; exact h
  | cons g gs ih =>
      intro st x h
      rw [List.foldl_cons]
      by_cases hc : st.1.contains g = true
      · rw [if_pos hc]
        exact ih st x h
      · rw [if_neg hc]
        exact ih _ x (List.mem_append_left _ h)

theorem mem_closureLoop_mono (m : List (String × List String)) :
    ∀ (fuel : Nat) (result queue : List String) (x : String), x ∈ result →
      x ∈ closureLoop m fuel result queue := by
  intro fuel
  induction fuel with
  | zero => intro result queue x h; exact h
  | succ fuel ih =>
      intro result queue x h
      cases queue with
      | nil => exact h
      | cons name queue =>
          rw [closureLoop]
          exact ih _ _ x (mem_inner_fold _ (result, queue) x h)

/-- The "*" token belongs to every identity set get_memberships builds. -/
theorem star_mem_memberships (cfg : Config) (user : Option String) :
    (get_memberships cfg user).contains "*" = true := by
  cases user with
  | none =>
      show (set_add_string (set_add_string [] "*") "$anonymous").contains "*"
        = true
      decide
  | some u =>
      unfold get_memberships
      refine (contains_iff_mem _ _).mpr ?_
      exact mem_set_add_mono _ _ _ (mem_set_add_self _ _)

/-- C10: an entry with the match string exactly "~*" never contributes to
a section's accumulated access, for the identity set of any config,
repository and user - because "*" is in every identity set and the
inverted membership test then never succeeds. -/
theorem C10_tilde_star_never_matches (cfg : Config) (user : Option String)
    (st : Bool × Rights) (value : String) :
    process_rule (get_memberships cfg user) st ("~*", value) = st ∧
    (get_memberships cfg user).contains "*" = true := by
  refine ⟨?_, star_mem_memberships cfg user⟩
  rw [process_rule_eq]
  have h1 : ruleApplies (get_memberships cfg user) ("~*", value).1 = false := by
    unfold ruleApplies
    have h2 : headIs '~' "~*" = true := by decide
    have h3 : String.mk ("~*".data.drop 1) = "*" := by decide
    rw [h2, if_pos rfl, h3, star_mem_memberships cfg user]
    rfl
  rw [h1]
  rfl

theorem mem_get_aliases_elim (cfg : Config) (u x : String)
    (h : x ∈ get_aliases cfg u) :
    x = u ∨ ∃ n : String, x = String.mk ('&' :: n.data) := by
  unfold get_aliases at h
  rcases List.mem_cons.mp h with h2 | h2
  · exact Or.inl h2
  · rcases List.mem_filterMap.mp h2 with ⟨e, _, hx⟩
    by_cases hc : (e.2 == u) = true
    · rw [if_pos hc] at hx
      exact Or.inr ⟨e.1, (Option.some.injEq _ _).mp hx.symm⟩
    · rw [if_neg hc] at hx
      cases hx

theorem mapPush_values {P : String → Prop} (m : List (String × List String))
    (key val : String) (hm : ∀ p ∈ m, ∀ x ∈ p.2, P x) (hv : P val) :
    ∀ p ∈ mapPush m key val, ∀ x ∈ p.2, P x := by
  intro p hp x hx
  unfold mapPush at hp
  cases hf : m.find? (fun q => q.1 == key) with
  | some q =>
      rw [hf] at hp
      rcases List.mem_map.mp hp with ⟨q2, hq2, hpq⟩
      by_cases hk : (q2.1 == key) = true
      · rw [if_pos hk] at hpq
        rw [← hpq] at hx
        rcases List.mem_append.mp hx with h2 | h2
        · exact hm q2 hq2 x h2
        · rw [List.mem_singleton.mp h2]
          exact hv
      · rw [if_neg hk] at hpq
        rw [← hpq] at hx
        exact hm q2 hq2 x hx
  | none =>
      rw [hf] at hp
      rcases List.mem_append.mp hp with h2 | h2
      · exact hm p h2 x hx
      · rw [List.mem_singleton.mp h2] at hx
        rw [List.mem_singleton.mp hx]
        exact hv

theorem add_group_fold_values (aliases : List String) (name : String) :
    ∀ (ms : List String) (m0 : List (String × List String)),
      (∀ p ∈ m0, ∀ x ∈ p.2, ∃ g : String, x = String.mk ('@' :: g.data)) →
      ∀ p ∈ ms.foldl
        (fun m member =>
          if headIs '@' member || aliases.contains member then
            mapPush m member (String.mk ('@' :: name.data))
          else m) m0,
        ∀ x ∈ p.2, ∃ g : String, x = String.mk ('@' :: g.data) := by
  intro ms
  induction ms with
  | nil => intro m0 hm; exact hm
  | cons mem ms ih =>
      intro m0 hm
      rw [List.foldl_cons]
      by_cases hc : (headIs '@' mem || aliases.contains mem) = true
      · rw [if_pos hc]
        exact ih _ (mapPush_values _ _ _ hm ⟨name, rfl⟩)
      · rw [if_neg hc]
        exact ih _ hm

theorem get_group_memberships_values (cfg : Config) (aliases : List String) :
    ∀ p ∈ get_group_memberships cfg aliases, ∀ x ∈ p.2,
      ∃ g : String, x = String.mk ('@' :: g.data) := by
  unfold get_group_memberships
  have key : ∀ (es : List (String × String)) (m0 : List (String × List String)),
      (∀ p ∈ m0, ∀ x ∈ p.2, ∃ g : String, x = String.mk ('@' :: g.data)) →
      ∀ p ∈ es.foldl (fun m e => add_group aliases m e.1 e.2) m0, ∀ x ∈ p.2,
        ∃ g : String, x = String.mk ('@' :: g.data) := by
    intro es
    induction es with
    | nil => intro m0 hm; exact hm
    | cons e es ih =>
        intro m0 hm
        rw [List.foldl_cons]
        refine ih _ ?_
        unfold add_group
        exact add_group_fold_values aliases e.1 (splitChop e.2) m0 hm
  exact key _ [] (by intro p hp; cases hp)

theorem mem_assocGet (m : List (String × List String)) (k x : String)
    (h : x ∈ assocGet m k) : ∃ p ∈ m, x ∈ p.2 := by
  unfold assocGet at h
  cases hf : m.find? (fun p => p.1 == k) with
  | none => rw [hf] at h; cases h
  | some p =>
      rw [hf] at h
      exact ⟨p, List.mem_of_find?_eq_some hf, h⟩

theorem mem_inner_fold_elim (gs : List String) :
    ∀ (st : List String × List String) (x : String),
      x ∈ (gs.foldl
        (fun (st : List String × List String) g =>
          if st.1.contains g then st else (st.1 ++ [g], st.2 ++ [g])) st).1 →
      x ∈ st.1 ∨ x ∈ gs := by
  induction gs with
  | nil => intro st x h; exact Or.inl h
  | cons g gs ih =>
      intro st x h
      rw [List.foldl_cons] at h
      by_cases hc : st.1.contains g = true
      · rw [if_pos hc] at h
        rcases ih st x h with h2 | h2
        · exact Or.inl h2
        · exact Or.inr (List.mem_cons_of_mem g h2)
      · rw [if_neg hc] at h
        rcases ih _ x h with h2 | h2
        · rcases List.mem_append.mp h2 with h3 | h3
          · exact Or.inl h3
          · rw [List.mem_singleton.mp h3]
            exact Or.inr (List.mem_cons_self g gs)
        · exact Or.inr (List.mem_cons_of_mem g h2)

theorem mem_closureLoop_elim (m : List (String × List String)) :
    ∀ (fuel : Nat) (res q : List String) (x : String),
      x ∈ closureLoop m fuel res q → x ∈ res ∨ ∃ p ∈ m, x ∈ p.2 := by
  intro fuel
  induction fuel with
  | zero => intro res q x h; exact Or.inl h
  | succ fuel ih =>
      intro res q x h
      cases q with
      | nil => exact Or.inl h
      | cons name queue =>
          rw [closureLoop] at h
          rcases ih _ _ x h with h2 | h2
          · rcases mem_inner_fold_elim _ (res, queue) x h2 with h3 | h3
            · exact Or.inl h3
            · exact Or.inr (mem_assocGet _ _ _ h3)
          · exact Or.inr h2

/-- C5 counterexample: the caller may pass the literal user name
"$anonymous", whose identity set then does contain "$anonymous". -/
theorem C5_counterexample :
    (get_memberships [] (some "$anonymous")).contains "$anonymous" = true := by
  decide

/-- C5, amended: the identity set of the absent user is exactly
["*", "$anonymous"] whatever the config; the identity set of a present
user U contains U, "*" and "$authenticated", and it contains "$anonymous"
only when U itself is the literal string "$anonymous". -/
theorem C5_identity_set (cfg : Config) (U : String) :
    get_memberships cfg none = ["*", "$anonymous"] ∧
    (get_memberships cfg (some U)).contains U = true ∧
    (get_memberships cfg (some U)).contains "*" = true ∧
    (get_memberships cfg (some U)).contains "$authenticated" = true ∧
    ((get_memberships cfg (some U)).contains "$anonymous" = true →
      U = "$anonymous") := by
  have hstruct : get_memberships cfg (some U) =
      set_add_string (set_add_string
        (closureLoop (get_group_memberships cfg (get_aliases cfg U))
          (closureFuel (get_aliases cfg U)
            (get_group_memberships cfg (get_aliases cfg U)))
          (get_aliases cfg U) (get_aliases cfg U)) "*") "$authenticated" := rfl
  refine ⟨?_, ?_, ?_, ?_, ?_⟩
  · show set_add_string (set_add_string [] "*") "$anonymous" = ["*", "$anonymous"]
    decide
  · rw [hstruct]
    refine (contains_iff_mem _ _).mpr ?_
    refine mem_set_add_mono _ _ _ (mem_set_add_mono _ _ _ ?_)
    refine mem_closureLoop_mono _ _ _ _ _ ?_
    exact List.mem_cons_self U _
  · exact star_mem_memberships cfg (some U)
  · rw [hstruct]
    exact (contains_iff_mem _ _).mpr (mem_set_add_self _ _)
  · intro h
    rw [hstruct] at h
    have hmem := (contains_iff_mem _ _).mp h
    rcases mem_set_add_elim _ _ _ hmem with h2 | h2
    case inr => exact absurd h2 (by decide)
    rcases mem_set_add_elim _ _ _ h2 with h3 | h3
    case inr => exact absurd h3 (by decide)
    rcases mem_closureLoop_elim _ _ _ _ _ h3 with h4 | h4
    · rcases mem_get_aliases_elim cfg U _ h4 with h5 | h5
      · exact h5.symm
      · rcases h5 with ⟨n, hn⟩
        have := congrArg String.data hn
        have hd : "$anonymous".data = '$' :: "anonymous".data := rfl
        rw [hd] at this
        injection this with hc _
        exact absurd hc (by decide)
    · rcases h4 with ⟨p, hp, hxp⟩
      rcases get_group_memberships_values cfg (get_aliases cfg U) p hp _ hxp
        with ⟨g, hg⟩
      have := congrArg String.data hg
      have hd : "$anonymous".data = '$' :: "anonymous".data := rfl
      rw [hd] at this
      injection this with hc _
      exact absurd hc (by decide)

/-- C5 witness at a concrete input. -/
theorem C5_identity_set_witness :
    get_memberships [] none = ["*", "$anonymous"] ∧
    (get_memberships [] (some "alice")).contains "alice" = true ∧
    (get_memberships [] (some "alice")).contains "*" = true ∧
    (get_memberships [] (some "alice")).contains "$authenticated" = true ∧
    ((get_memberships [] (some "alice")).contains "$anonymous" = true →
      "alice" = "$anonymous") :=
  C5_identity_set [] "alice"

/-! Duplicate leaf assignment (C7). -/

/-- C7: the validator accepts a config carrying both a global rule "[/foo]"
and a repository-scoped rule "[repoA:/foo]" for the same path, yet building
the tree for repository "repoA" resolves both filtered rules to the same
leaf node, so the second insertion reaches a node whose access is already
set - the C assertion assert(node->access == NULL) in insert_path fails
(under NDEBUG the first rule's rights are silently overwritten). -/
theorem C7_duplicate_leaf_assert :
    svn_repos__authz_config_validate
        [⟨"/foo", [("*", "r")]⟩, ⟨"repoA:/foo", [("*", "r")]⟩] = .ok () ∧
      create_user_authz_ok
        [⟨"/foo", [("*", "r")]⟩, ⟨"repoA:/foo", [("*", "r")]⟩] "repoA" none
        = false := by
  exact ⟨by decide, by decide⟩

/-! Group cycles (C8). -/

theorem authz_group_walk_zero (cfg : Config) (g : String) (ch : List String) :
    authz_group_walk cfg 0 g ch = .error .fuelOut := rfl

theorem firstErr_cons {α : Type} (f : α → Except AuthzError Unit) (x : α)
    (xs : List α) :
    firstErr f (x :: xs) =
      (match f x with
       | .ok _ => firstErr f xs
       | .error e => .error e) := rfl

theorem walk_member_check_cons (cfg : Config) (fuel : Nat) (group : String)
    (checked : List String) (m : String) (c : Char) (cs : List Char)
    (hmd : m.data = c :: cs) :
    walk_member_check cfg fuel group checked m =
      if c = '@' then
        if checked.contains (String.mk cs) then
          .error (.invalidConfig (circular_msg (String.mk cs) group))
        else
          authz_group_walk cfg fuel (String.mk cs) (checked ++ [String.mk cs])
      else if c = '&' then
        match configGet cfg "aliases" (String.mk cs) with
        | none => .error (.invalidConfig (undefined_alias_msg (String.mk cs)))
        | some _ => .ok ()
      else .ok () := by
  unfold walk_member_check
  rw [hmd]

theorem walk_member_check_nil (cfg : Config) (fuel : Nat) (group : String)
    (checked : List String) (m : String) (hmd : m.data = []) :
    walk_member_check cfg fuel group checked m = .ok () := by
  unfold walk_member_check
  rw [hmd]

theorem walk_members_nil (cfg : Config) (fuel : Nat) (g : String)
    (ch : List String) : walk_members cfg fuel g ch [] = .ok () := rfl

theorem walk_members_cons (cfg : Config) (fuel : Nat) (group : String)
    (checked : List String) (m : String) (rest : List String)
    (c : Char) (cs : List Char) (hmd : m.data = c :: cs) :
    walk_members cfg fuel group checked (m :: rest) =
      if c = '@' then
        if checked.contains (String.mk cs) then
          .error (.invalidConfig (circular_msg (String.mk cs) group))
        else
          match authz_group_walk cfg fuel (String.mk cs)
              (checked ++ [String.mk cs]) with
          | .ok _ => walk_members cfg fuel group checked rest
          | .error e => .error e
      else if c = '&' then
        match configGet cfg "aliases" (String.mk cs) with
        | none => .error (.invalidConfig (undefined_alias_msg (String.mk cs)))
        | some _ => walk_members cfg fuel group checked rest
      else walk_members cfg fuel group checked rest := by
  unfold walk_members
  rw [firstErr_cons, walk_member_check_cons cfg fuel group checked m c cs hmd]
  by_cases h1 : c = '@'
  · rw [if_pos h1, if_pos h1]
    by_cases hcc : checked.contains (String.mk cs) = true
    · rw [if_pos hcc, if_pos hcc]
    · rw [if_neg hcc, if_neg hcc]
  · rw [if_neg h1, if_neg h1]
    by_cases h2 : c = '&'
    · rw [if_pos h2, if_pos h2]
      cases configGet cfg "aliases" (String.mk cs) with
      | none => rfl
      | some v => rfl
    · rw [if_neg h2, if_neg h2]

theorem walk_members_nil_data (cfg : Config) (fuel : Nat) (group : String)
    (checked : List String) (m : String) (rest : List String)
    (hmd : m.data = []) :
    walk_members cfg fuel group checked (m :: rest) =
      walk_members cfg fuel group checked rest := by
  unfold walk_members
  rw [firstErr_cons, walk_member_check_nil cfg fuel group checked m hmd]

theorem authz_group_walk_succ (cfg : Config) (fuel : Nat) (g : String)
    (ch : List String) :
    authz_group_walk cfg (fuel + 1) g ch =
      (match configGet cfg "groups" g with
       | none => .error (.invalidConfig (undefined_group_msg g))
       | some value => walk_members cfg fuel g ch (splitChop value)) := by
  rw [authz_group_walk]
  cases configGet cfg "groups" g with
  | none => rfl
  | some v => rfl

theorem getD_of_lt (l : List String) (i : Nat) (h : i < l.length) :
    l.getD i "" = l.get ⟨i, h⟩ := by
  simp [List.getD_eq_getElem?_getD, List.getElem?_eq_getElem h]

theorem cycle_next {cfg : Config} {l : List String} (hcyc : IsGroupCycle cfg l)
    {x : String} (hx : x ∈ l) : ∃ y ∈ l, group_edge cfg x y = true := by
  have hlen : 0 < l.length := List.length_pos.mpr hcyc.1
  rcases List.getElem_of_mem hx with ⟨i, hi, hget⟩
  have hmod : (i + 1) % l.length < l.length := Nat.mod_lt _ hlen
  refine ⟨l.get ⟨(i + 1) % l.length, hmod⟩, List.get_mem l _ _, ?_⟩
  have hstep := hcyc.2 i hi
  rw [getD_of_lt l i hi, getD_of_lt l _ hmod] at hstep
  have hx2 : l.get ⟨i, hi⟩ = x := by
    rw [← hget]
    simp [List.get_eq_getElem]
  rwa [hx2] at hstep

theorem edge_defined {cfg : Config} {x y : String}
    (h : group_edge cfg x y = true) :
    ∃ v, configGet cfg "groups" x = some v := by
  unfold group_edge group_members at h
  cases hv : configGet cfg "groups" x with
  | some v => exact ⟨v, rfl⟩
  | none => rw [hv] at h; simp at h

theorem edge_member {cfg : Config} {x y v : String}
    (h : group_edge cfg x y = true) (hv : configGet cfg "groups" x = some v) :
    String.mk ('@' :: y.data) ∈ splitChop v := by
  unfold group_edge group_members at h
  rw [hv] at h
  exact (contains_iff_mem _ _).mp h

theorem walk_members_cycle (cfg : Config) (l : List String) (fuel : Nat)
    (hA : ∀ z ∈ l, ∀ ch, authz_group_walk cfg fuel z ch ≠ .ok ())
    (y : String) (hy : y ∈ l) (group : String) (checked : List String) :
    ∀ ms, String.mk ('@' :: y.data) ∈ ms →
      walk_members cfg fuel group checked ms ≠ .ok () := by
  intro ms
  induction ms with
  | nil => intro hmem; cases hmem
  | cons m rest ih =>
      intro hmem hok
      rcases List.mem_cons.mp hmem with heq | hmem2
      · subst heq
        rw [walk_members_cons cfg fuel group checked _ rest '@' y.data rfl,
          if_pos rfl] at hok
        by_cases hc : checked.contains (String.mk y.data) = true
        · rw [if_pos hc] at hok
          exact Except.noConfusion hok
        · rw [if_neg hc] at hok
          cases hw : authz_group_walk cfg fuel (String.mk y.data)
              (checked ++ [String.mk y.data]) with
          | ok u =>
              cases u
              rw [string_mk_data y] at hw
              exact hA y hy _ hw
          | error e =>
              rw [hw] at hok
              exact Except.noConfusion hok
      · cases hmd : m.data with
        | nil =>
            rw [walk_members_nil_data cfg fuel group checked m rest hmd] at hok
            exact ih hmem2 hok
        | cons c cs =>
            rw [walk_members_cons cfg fuel group checked m rest c cs hmd] at hok
            by_cases h1 : c = '@'
            · rw [if_pos h1] at hok
              by_cases hcc : checked.contains (String.mk cs) = true
              · rw [if_pos hcc] at hok
                exact Except.noConfusion hok
              · rw [if_neg hcc] at hok
                cases hw : authz_group_walk cfg fuel (String.mk cs)
                    (checked ++ [String.mk cs]) with
                | ok u =>
                    cases u
                    rw [hw] at hok
                    exact ih hmem2 hok
                | error e =>
                    rw [hw] at hok
                    exact Except.noConfusion hok
            · rw [if_neg h1] at hok
              by_cases h2 : c = '&'
              · rw [if_pos h2] at hok
                cases ha : configGet cfg "aliases" (String.mk cs) with
                | none =>
                    rw [ha] at hok
                    exact Except.noConfusion hok
                | some v =>
                    rw [ha] at hok
                    exact ih hmem2 hok
              · rw [if_neg h2] at hok
                exact ih hmem2 hok

theorem walk_cycle_not_ok (cfg : Config) (l : List String)
    (hcyc : IsGroupCycle cfg l) :
    ∀ (fuel : Nat) (x : String), x ∈ l → ∀ checked,
      authz_group_walk cfg fuel x checked ≠ .ok () := by
  intro fuel
  induction fuel with
  | zero =>
      intro x hx checked h
      rw [authz_group_walk_zero] at h
      exact Except.noConfusion h
  | succ fuel ih =>
      intro x hx checked h
      rcases cycle_next hcyc hx with ⟨y, hy, hedge⟩
      rcases edge_defined hedge with ⟨v, hv⟩
      rw [authz_group_walk_succ, hv] at h
      exact walk_members_cycle cfg l fuel ih y hy x checked (splitChop v)
        (edge_member hedge hv) h

theorem firstErr_ok {α : Type} (f : α → Except AuthzError Unit) :
    ∀ l, firstErr f l = .ok () → ∀ x ∈ l, f x = .ok () := by
  intro l
  induction l with
  | nil => intro _ x hx; cases hx
  | cons a as ih =>
      intro h x hx
      rw [firstErr] at h
      cases hf : f a with
      | ok u =>
          cases u
          rw [hf] at h
          rcases List.mem_cons.mp hx with h2 | h2
          · rw [h2]; exact hf
          · exact ih h x h2
      | error e => rw [hf] at h; exact absurd h (fun hc => Except.noConfusion hc)

theorem firstErr_error {α : Type} (f : α → Except AuthzError Unit) :
    ∀ l e, firstErr f l = .error e → ∃ x ∈ l, f x = .error e := by
  intro l
  induction l with
  | nil => intro e h; cases h
  | cons a as ih =>
      intro e h
      rw [firstErr] at h
      cases hf : f a with
      | ok u =>
          cases u
          rw [hf] at h
          rcases ih e h with ⟨x, hx, hfx⟩
          exact ⟨x, List.mem_cons_of_mem a hx, hfx⟩
      | error e2 =>
          rw [hf] at h
          have he : e2 = e := Except.error.inj h
          subst he
          exact ⟨a, List.mem_cons_self a as, hf⟩

theorem rule_value_not_fuelOut (k v : String) :
    authz_validate_rule_value k v ≠ .error .fuelOut := by
  unfold authz_validate_rule_value
  cases h : v.data.find? (fun c => !(c == 'r') && !(c == 'w') && !c.isWhitespace)
    <;> simp

theorem rule_checks_not_fuelOut (cfg : Config) (k m v : String) :
    authz_validate_rule_checks cfg k m v ≠ .error .fuelOut := by
  intro h
  unfold authz_validate_rule_checks at h
  repeat' split at h
  all_goals
    first
      | exact rule_value_not_fuelOut _ _ h
      | exact AuthzError.noConfusion (Except.error.inj h)

theorem rule_not_fuelOut (cfg : Config) (k v : String) :
    authz_validate_rule cfg k v ≠ .error .fuelOut := by
  intro h
  unfold authz_validate_rule at h
  repeat' split at h
  all_goals
    first
      | exact rule_checks_not_fuelOut _ _ _ _ h
      | exact AuthzError.noConfusion (Except.error.inj h)

theorem configGet_groups_mem_defined {cfg : Config} {g v : String}
    (h : configGet cfg "groups" g = some v) : g ∈ defined_groups cfg := by
  unfold configGet at h
  cases hf : (entriesOf cfg "groups").find? (fun e => e.1 == g) with
  | none => rw [hf] at h; cases h
  | some e =>
      unfold defined_groups
      rw [List.mem_dedup]
      exact List.mem_map.mpr ⟨e, List.mem_of_find?_eq_some hf,
        eq_of_beq (by simpa using List.find?_some hf)⟩

theorem groups_left_insert (cfg : Config) (checked : List String) (sub : String)
    (hdef : sub ∈ defined_groups cfg) (hnc : sub ∉ checked) :
    groups_left cfg (checked ++ [sub]) + 1 = groups_left cfg checked := by
  unfold groups_left
  have hset : ((defined_groups cfg).toFinset.filter
        (fun g => g ∉ checked ++ [sub]))
      = ((defined_groups cfg).toFinset.filter (fun g => g ∉ checked)).erase
          sub := by
    ext g
    simp only [Finset.mem_filter, Finset.mem_erase, List.mem_append,
      List.mem_singleton, not_or]
    tauto
  rw [hset]
  have hmem : sub ∈ (defined_groups cfg).toFinset.filter
      (fun g => g ∉ checked) := by
    rw [Finset.mem_filter]
    exact ⟨List.mem_toFinset.mpr hdef, hnc⟩
  rw [Finset.card_erase_of_mem hmem]
  have hpos : 0 < ((defined_groups cfg).toFinset.filter
      (fun g => g ∉ checked)).card := Finset.card_pos.mpr ⟨sub, hmem⟩
  omega

theorem walk_not_fuelOut (cfg : Config) :
    ∀ fuel : Nat,
      (∀ group checked, groups_left cfg checked + 2 ≤ fuel →
        authz_group_walk cfg fuel group checked ≠ .error .fuelOut) ∧
      (∀ group checked ms, groups_left cfg checked + 1 ≤ fuel →
        walk_members cfg fuel group checked ms ≠ .error .fuelOut) := by
  intro fuel
  induction fuel with
  | zero =>
      constructor
      · intro group checked hb
        exact absurd hb (by omega)
      · intro group checked ms hb
        exact absurd hb (by omega)
  | succ fuel ih =>
      have hP : ∀ group checked, groups_left cfg checked + 2 ≤ fuel + 1 →
          authz_group_walk cfg (fuel + 1) group checked ≠ .error .fuelOut := by
        intro group checked hb h
        rw [authz_group_walk_succ] at h
        cases hv : configGet cfg "groups" group with
        | none =>
            rw [hv] at h
            exact AuthzError.noConfusion (Except.error.inj h)
        | some v =>
            rw [hv] at h
            exact ih.2 group checked (splitChop v) (by omega) h
      refine ⟨hP, ?_⟩
      intro group checked ms hb
      induction ms with
      | nil =>
          intro h
          rw [walk_members_nil] at h
          exact Except.noConfusion h
      | cons m rest ihm =>
          intro h
          cases hmd : m.data with
          | nil =>
              rw [walk_members_nil_data cfg (fuel + 1) group checked m rest hmd]
                at h
              exact ihm h
          | cons c cs =>
              rw [walk_members_cons cfg (fuel + 1) group checked m rest c cs hmd]
                at h
              by_cases h1 : c = '@'
              · rw [if_pos h1] at h
                by_cases hcc : checked.contains (String.mk cs) = true
                · rw [if_pos hcc] at h
                  exact AuthzError.noConfusion (Except.error.inj h)
                · rw [if_neg hcc] at h
                  cases hw : authz_group_walk cfg (fuel + 1) (String.mk cs)
                      (checked ++ [String.mk cs]) with
                  | ok u =>
                      cases u
                      rw [hw] at h
                      exact ihm h
                  | error e =>
                      rw [hw] at h
                      have he : e = .fuelOut := Except.error.inj h
                      subst he
                      cases hvs : configGet cfg "groups" (String.mk cs) with
                      | none =>
                          rw [authz_group_walk_succ, hvs] at hw
                          exact AuthzError.noConfusion (Except.error.inj hw)
                      | some v2 =>
                          have hdef := configGet_groups_mem_defined hvs
                          have hnc2 : String.mk cs ∉ checked := fun hmm =>
                            hcc ((contains_iff_mem _ _).mpr hmm)
                          have hins := groups_left_insert cfg checked _ hdef hnc2
                          exact hP (String.mk cs) (checked ++ [String.mk cs])
                            (by omega) hw
              · rw [if_neg h1] at h
                by_cases h2 : c = '&'
                · rw [if_pos h2] at h
                  cases ha : configGet cfg "aliases" (String.mk cs) with
                  | none =>
                      rw [ha] at h
                      exact AuthzError.noConfusion (Except.error.inj h)
                  | some v2 =>
                      rw [ha] at h
                      exact ihm h
                · rw [if_neg h2] at h
                  exact ihm h

theorem validate_not_fuelOut (cfg : Config) :
    svn_repos__authz_config_validate cfg ≠ .error .fuelOut := by
  intro h
  unfold svn_repos__authz_config_validate at h
  rcases firstErr_error _ _ _ h with ⟨sec, _, hserr⟩
  unfold authz_validate_section at hserr
  by_cases hg : (sec.name == "groups") = true
  · rw [if_pos hg] at hserr
    rcases firstErr_error _ _ _ hserr with ⟨e, _, herr⟩
    unfold authz_validate_group at herr
    refine (walk_not_fuelOut cfg (group_walk_fuel cfg)).1 e.1 [] ?_ herr
    unfold groups_left group_walk_fuel
    have h1 : ((defined_groups cfg).toFinset.filter
        (fun g => g ∉ ([] : List String))).card
        ≤ (defined_groups cfg).toFinset.card := Finset.card_filter_le _ _
    have h2 : (defined_groups cfg).toFinset.card
        ≤ (defined_groups cfg).length := (defined_groups cfg).toFinset_card_le
    have h3 : (defined_groups cfg).length
        ≤ ((entriesOf cfg "groups").map (fun e => e.1)).length :=
      (List.dedup_sublist _).length_le
    rw [List.length_map] at h3
    omega
  · rw [if_neg hg] at hserr
    by_cases ha : (sec.name == "aliases") = true
    · rw [if_pos ha] at hserr
      exact Except.noConfusion hserr
    · rw [if_neg ha] at hserr
      by_cases hcan : is_canonical_fspath
          (match splitRepoName sec.name with
           | some (_, p) => p
           | none => sec.name) = true
      · rw [if_pos hcan] at hserr
        rcases firstErr_error _ _ _ hserr with ⟨e, _, herr⟩
        exact rule_not_fuelOut cfg e.1 e.2 herr
      · rw [if_neg hcan] at hserr
        exact AuthzError.noConfusion (Except.error.inj hserr)

/-- C8 counterexample: a [groups] section that both contains a circular
dependency (aaa and bbb) and, earlier in entry order, a reference to an
undefined alias: validation fails with the alias error, an invalid-config
error that does not name the cycle's groups. -/
theorem C8_counterexample :
    svn_repos__authz_config_validate
        [⟨"groups", [("zzz", "&undef"), ("aaa", "@bbb"), ("bbb", "@aaa")]⟩]
      = .error (.invalidConfig
          "An authz rule refers to alias 'undef', which is undefined") := by
  decide

/-- C8, amended: a config whose [groups] section contains a circular
dependency always fails validation with an SVN_ERR_AUTHZ_INVALID_CONFIG
error (though the reported message may concern a different error found
first and then does not name the cycle's groups); for the config that is
exactly "[groups] a = @b, b = @a" the error names both groups; and the
fuelled group walk never exhausts its fuel, i.e. validation terminates on
every config. -/
theorem C8_group_cycle (cfg : Config) (l : List String)
    (hcyc : IsGroupCycle cfg l) :
    (∃ msg, svn_repos__authz_config_validate cfg = .error (.invalidConfig msg)) ∧
    svn_repos__authz_config_validate [⟨"groups", [("a", "@b"), ("b", "@a")]⟩] =
      .error (.invalidConfig "Circular dependency between groups 'b' and 'a'") ∧
    (∀ c : Config, svn_repos__authz_config_validate c ≠ .error .fuelOut) := by
  refine ⟨?_, by decide, fun c => validate_not_fuelOut c⟩
  cases hres : svn_repos__authz_config_validate cfg with
  | error e =>
      cases e with
      | invalidConfig msg => exact ⟨msg, rfl⟩
      | fuelOut => exact absurd hres (validate_not_fuelOut cfg)
  | ok u =>
      cases u
      exfalso
      have hl0 : l ≠ [] := hcyc.1
      obtain ⟨g, hg⟩ : ∃ g, g ∈ l := by
        cases l with
        | nil => exact absurd rfl hl0
        | cons a as => exact ⟨a, List.mem_cons_self a as⟩
      rcases cycle_next hcyc hg with ⟨y, hy, hedge⟩
      rcases edge_defined hedge with ⟨v, hv⟩
      have hfind : ∃ e ∈ entriesOf cfg "groups", e.1 = g := by
        unfold configGet at hv
        cases hf : (entriesOf cfg "groups").find? (fun e => e.1 == g) with
        | none => rw [hf] at hv; cases hv
        | some e =>
            exact ⟨e, List.mem_of_find?_eq_some hf,
              eq_of_beq (by simpa using List.find?_some hf)⟩
      rcases hfind with ⟨entry, hentry, hkey⟩
      have hsec : ∃ sec ∈ cfg, sec.name = "groups"
          ∧ sec.entries = entriesOf cfg "groups" := by
        unfold entriesOf at hentry ⊢
        cases hf : List.find? (fun s => s.name == "groups") cfg with
        | none => rw [hf] at hentry; cases hentry
        | some sec =>
            refine ⟨sec, List.mem_of_find?_eq_some hf,
              eq_of_beq (by simpa using List.find?_some hf), ?_⟩
            rfl
      rcases hsec with ⟨sec, hsecmem, hsecname, hsecent⟩
      unfold svn_repos__authz_config_validate at hres
      have hsecok := firstErr_ok _ _ hres sec hsecmem
      unfold authz_validate_section at hsecok
      rw [if_pos (beq_iff_eq.mpr hsecname)] at hsecok
      have hgok := firstErr_ok _ _ hsecok entry (by rw [hsecent]; exact hentry)
      rw [hkey] at hgok
      unfold authz_validate_group at hgok
      exact walk_cycle_not_ok cfg l hcyc (group_walk_fuel cfg) g hg [] hgok

/-- C8 witness at a concrete input. -/
theorem C8_group_cycle_witness :
    (∃ msg, svn_repos__authz_config_validate
        [⟨"groups", [("a", "@b"), ("b", "@a")]⟩]
      = .error (.invalidConfig msg)) ∧
    svn_repos__authz_config_validate [⟨"groups", [("a", "@b"), ("b", "@a")]⟩] =
      .error (.invalidConfig "Circular dependency between groups 'b' and 'a'") ∧
    (∀ c : Config, svn_repos__authz_config_validate c ≠ .error .fuelOut) :=
  C8_group_cycle [⟨"groups", [("a", "@b"), ("b", "@a")]⟩] ["a", "b"] (by decide)

end Authz
